import Mathlib

/-!
# Verification of the tipa dictionary-driven g2p scanning engine

Shallow embedding, in Lean 4, of the core of the `temporal-IPA/tipa`
repository: the normalization utilities (`pkg/phono/dictionary.go`), the
loader / merge framework (`pkg/phono/loader.go`, `pkg/phono/parse_utils.go`,
`pkg/phono/slashed_txt.go`), the `Picker` pronunciation-selection heuristic,
and the `Determinist` greedy longest-match scanner together with its
`Apply` / `Scan` / `ScanWithOptions` entry points, `sortFragments` and
`mergeRawTexts`.

Modelling conventions:

* Go strings are modelled as lists of runes (`Str := List Nat`,
  each rune modelled as the `Nat` value of its Unicode code point).  Every operation of the embedded
  code is rune-based in the source (`[]rune` conversions, per-rune
  `unicode.ToLower` / `unicode.IsSpace`, rune offsets), so no byte-level
  UTF-8 modelling is needed.
* The Unicode character data consulted by the Go standard library
  (`unicode.ToLower`, `unicode.IsSpace`, `unicode.IsPunct`, the `Mn`
  category and NFD canonical decompositions from
  `golang.org/x/text/unicode/norm`) is library data, not repository code.
  It is embedded here restricted to a faithful fragment: ASCII, the
  Latin-1 supplement (the repertoire actually used by the French-oriented
  dictionaries of the repository), the Œ/œ pair, the combining diacritical
  marks block U+0300–U+036F, and the Unicode whitespace set.  Outside the
  embedded fragment the functions behave as on undecomposable, caseless,
  non-mark characters.
* Go `float64` confidences are modelled as `ℚ`.  The only confidence
  arithmetic performed by the embedded code is multiplication of the
  constants 1, 0.9 and 0.95, where rational arithmetic is exact.
* Go maps with a deterministic usage pattern (`Dictionary`,
  `Representation` sets, the key maps) are modelled as association lists /
  membership lists processed in insertion order; the claims settled here
  never depend on Go's randomized map iteration order (at most one
  original key per normalized key is involved).
* `sort.Slice` (an unstable sort) is modelled as an insertion sort using
  the same comparator; the claims proved about sorted output do not
  depend on the placement of elements that compare equal, and in the
  concrete scenarios evaluated no two compared elements are equal.
-/

namespace Tipa

/-- A Go string, viewed as its sequence of runes; each rune (Unicode
code point) is a `Nat`. -/
abbrev Str := List Nat

/-! ## Unicode character data (library data used by the Go code)

`goIsSpace` models `unicode.IsSpace`, `goToLower` models `unicode.ToLower`
(simple case mapping) on the embedded repertoire, `goIsMn` models
membership in the combining-diacritical-marks range of category Mn, and
`nfdRune` models the canonical (NFD) decomposition of a single rune on
the Latin-1 repertoire. -/

/-- Models `unicode.IsSpace`: Unicode white space. -/
def goIsSpace (c : Nat) : Bool :=
  (9 ≤ c && c ≤ 13) || c == 32 || c == 0x85 || c == 0xA0 || c == 0x1680 ||
  (0x2000 ≤ c && c ≤ 0x200A) || c == 0x2028 || c == 0x2029 ||
  c == 0x202F || c == 0x205F || c == 0x3000

/-- Models `unicode.ToLower` (simple case mapping), on the embedded repertoire:
ASCII letters, the Latin-1 uppercase range (U+00C0–U+00DE except the
multiplication sign U+00D7), and Œ→œ.  Other runes are unchanged. -/
def goToLower (c : Nat) : Nat :=
  if 0x41 ≤ c ∧ c ≤ 0x5A then c + 0x20
  else if 0xC0 ≤ c ∧ c ≤ 0xDE ∧ c ≠ 0xD7 then c + 0x20
  else if c = 0x152 then 0x153
  else c

/-- Category Mn (nonspacing combining marks): the combining diacritical
marks block U+0300–U+036F, which covers every mark produced by the NFD
decompositions of the embedded repertoire. -/
def goIsMn (c : Nat) : Bool :=
  0x300 ≤ c && c ≤ 0x36F

/-- Models `unicode.IsPunct` on the embedded repertoire: the ASCII and Latin-1
characters of general category P. -/
def goIsPunct (c : Nat) : Bool :=
  (0x21 ≤ c && c ≤ 0x23) || (0x25 ≤ c && c ≤ 0x2A) ||
  (0x2C ≤ c && c ≤ 0x2F) || c == 0x3A || c == 0x3B || c == 0x3F ||
  c == 0x40 || (0x5B ≤ c && c ≤ 0x5D) || c == 0x5F || c == 0x7B ||
  c == 0x7D || c == 0xA1 || c == 0xA7 || c == 0xAB || c == 0xB6 ||
  c == 0xB7 || c == 0xBB || c == 0xBF

/-- Canonical decompositions (NFD) of the Latin-1 letters of the embedded
repertoire, as `(precomposed, decomposition)` pairs. -/
def nfdTable : List (Nat × List Nat) :=
  [(0xC0, [0x41, 0x300]), (0xC1, [0x41, 0x301]), (0xC2, [0x41, 0x302]),
   (0xC3, [0x41, 0x303]), (0xC4, [0x41, 0x308]), (0xC5, [0x41, 0x30A]),
   (0xC7, [0x43, 0x327]), (0xC8, [0x45, 0x300]), (0xC9, [0x45, 0x301]),
   (0xCA, [0x45, 0x302]), (0xCB, [0x45, 0x308]), (0xCC, [0x49, 0x300]),
   (0xCD, [0x49, 0x301]), (0xCE, [0x49, 0x302]), (0xCF, [0x49, 0x308]),
   (0xD1, [0x4E, 0x303]), (0xD2, [0x4F, 0x300]), (0xD3, [0x4F, 0x301]),
   (0xD4, [0x4F, 0x302]), (0xD5, [0x4F, 0x303]), (0xD6, [0x4F, 0x308]),
   (0xD9, [0x55, 0x300]), (0xDA, [0x55, 0x301]), (0xDB, [0x55, 0x302]),
   (0xDC, [0x55, 0x308]), (0xDD, [0x59, 0x301]),
   (0xE0, [0x61, 0x300]), (0xE1, [0x61, 0x301]), (0xE2, [0x61, 0x302]),
   (0xE3, [0x61, 0x303]), (0xE4, [0x61, 0x308]), (0xE5, [0x61, 0x30A]),
   (0xE7, [0x63, 0x327]), (0xE8, [0x65, 0x300]), (0xE9, [0x65, 0x301]),
   (0xEA, [0x65, 0x302]), (0xEB, [0x65, 0x308]), (0xEC, [0x69, 0x300]),
   (0xED, [0x69, 0x301]), (0xEE, [0x69, 0x302]), (0xEF, [0x69, 0x308]),
   (0xF1, [0x6E, 0x303]), (0xF2, [0x6F, 0x300]), (0xF3, [0x6F, 0x301]),
   (0xF4, [0x6F, 0x302]), (0xF5, [0x6F, 0x303]), (0xF6, [0x6F, 0x308]),
   (0xF9, [0x75, 0x300]), (0xFA, [0x75, 0x301]), (0xFB, [0x75, 0x302]),
   (0xFC, [0x75, 0x308]), (0xFD, [0x79, 0x301]), (0xFF, [0x79, 0x308])]

/-- NFD decomposition of a single rune (`norm.NFD` per rune). -/
def nfdRune (c : Nat) : List Nat :=
  match nfdTable.lookup c with
  | some ds => ds
  | none => [c]

/-! ## Normalization utilities (`pkg/phono/dictionary.go`, scanner file) -/

/-- Models `strings.TrimSpace`, left part: drop leading Unicode whitespace. -/
def trimLeft (s : Str) : Str := s.dropWhile goIsSpace

/-- Models `strings.TrimSpace`, right part: drop trailing Unicode whitespace. -/
def trimRight (s : Str) : Str := (trimLeft s.reverse).reverse

/-- Models `strings.TrimSpace` (trimming the two ends commutes; the
right-after-left order is chosen for proof convenience). -/
def trimSpace (s : Str) : Str := trimRight (trimLeft s)

/-- Models `strings.ToLower` (per-rune simple case mapping). -/
def lowerStr (s : Str) : Str := s.map goToLower

/-- Models `NormalizeString` (`pkg/phono/dictionary.go`):
`strings.ToLower(strings.TrimSpace(s))`. -/
def NormalizeString (s : Str) : Str := lowerStr (trimSpace s)

/-- Models `removeDiacritics` (scanner file): NFD-decompose, then drop all
nonspacing combining marks (category Mn). -/
def removeDiacritics (s : Str) : Str :=
  (s.flatMap nfdRune).filter (fun c => !goIsMn c)

/-- Models `tolerantNormalize` (scanner file):
`phono.NormalizeString(removeDiacritics(s))`. -/
def tolerantNormalize (s : Str) : Str :=
  NormalizeString (removeDiacritics s)

/-! ## Dictionary model (`pkg/phono/dictionary.go`) -/

/-- Models `phono.AnnotatedPhonetized`: a phonetization with a confidence. -/
structure AnnotatedPhonetized where
  S : Str
  C : ℚ
  deriving Repr, DecidableEq

/-- Models `phono.Dictionary`: mapping from expression to ordered phonetizations
(modelled as an association list in insertion order). -/
abbrev Dictionary := List (Str × List Str)

/-- Models `phono.KeyMap`: mapping from normalized key to the original keys. -/
abbrev KeyMap := List (Str × List Str)

/-- Exact-key lookup in a `Dictionary` / `KeyMap` (Go map indexing). -/
def dictLookup (d : Dictionary) (k : Str) : Option (List Str) :=
  d.lookup k

/-- Add one value to a key's list in a `KeyMap`
(`keys[lk] = append(keys[lk], k)`). -/
def keyMapAdd (m : KeyMap) (k v : Str) : KeyMap :=
  match m with
  | [] => [(k, [v])]
  | (k', vs) :: rest =>
      if k' = k then (k', vs ++ [v]) :: rest else (k', vs) :: keyMapAdd rest k v

/-- Add a list of values to a key's list in a `KeyMap`. -/
def keyMapAddAll (m : KeyMap) (k : Str) (vs : List Str) : KeyMap :=
  match m with
  | [] => [(k, vs)]
  | (k', vs') :: rest =>
      if k' = k then (k', vs' ++ vs) :: rest else (k', vs') :: keyMapAddAll rest k vs

/-- Models `Dictionary.NormalizedKeys`: the strict normalized-key view. -/
def NormalizedKeys (d : Dictionary) : KeyMap :=
  d.foldl (fun m kv => keyMapAdd m (NormalizeString kv.1) kv.1) []

/-- Models `Dictionary.MaxKeyLen`: maximum key length in runes. -/
def MaxKeyLen (d : Dictionary) : Nat :=
  d.foldl (fun acc kv => max acc kv.1.length) 0

/-- Models `buildDiacriticInsensitiveKeyMap` (scanner file): re-index a
normalized key map by `tolerantNormalize`. -/
def buildDiacriticInsensitiveKeyMap (km : KeyMap) : KeyMap :=
  km.foldl (fun t e => keyMapAddAll t (tolerantNormalize e.1) e.2) []

/-! ## Result model (`pkg/g2p/result.go`) -/

/-- Models `g2p.Fragment`.  `Confidence` is modelled as `ℚ`. -/
structure Fragment where
  Phonetized : Str
  Pos : Nat
  Len : Nat
  Confidence : ℚ
  Variant : Nat
  deriving Repr, DecidableEq

/-- Models `g2p.RawText`. -/
structure RawText where
  Text : Str
  Pos : Nat
  Len : Nat
  deriving Repr, DecidableEq

/-- Models `g2p.Result`. -/
structure Result where
  Text : Str
  Fragments : List Fragment
  RawTexts : List RawText
  deriving Repr, DecidableEq

/-- Nat substring `string(runes[pos : pos+len])`. -/
def substr (t : Str) (pos len : Nat) : Str :=
  (t.drop pos).take len

/-! ## Picker (`PickAll`) -/

/-- One step of `PickAll`'s inner loop: process one indexed
pronunciation of the current key — skip empties and duplicates, weight
the first pronunciation `1.0` and the others `0.95`. -/
def pickPronStep (keyWeight : ℚ)
    (st : List AnnotatedPhonetized × List Str) (ip : Nat × Str) :
    List AnnotatedPhonetized × List Str :=
  if ip.2 = [] then st
  else if st.2.contains ip.2 then st
  else
    (st.1 ++ [⟨ip.2, keyWeight * (if ip.1 > 0 then 19/20 else 1)⟩],
     st.2 ++ [ip.2])

/-- One step of `PickAll`'s outer loop: process a single candidate key,
extending the `(options, seen)` state. -/
def pickKeyStep (dict : Dictionary) (normalizedSurface : Str)
    (st : List AnnotatedPhonetized × List Str) (key : Str) :
    List AnnotatedPhonetized × List Str :=
  match dictLookup dict key with
  | none => st
  | some prons =>
    if prons = [] then st
    else
      let normKey := NormalizeString key
      let keyWeight : ℚ :=
        if normKey ≠ [] ∧ normKey ≠ normalizedSurface then 9/10 else 1
      prons.enum.foldl (pickPronStep keyWeight) st

/-- First pass of the syllabicity filter of `PickAll`: the dot-stripped
base forms that have at least one dotted variant. -/
def dottedBases (options : List AnnotatedPhonetized) : List Str :=
  options.foldl
    (fun acc opt =>
      if opt.S.contains 46 then acc ++ [opt.S.filter (· ≠ 46)] else acc) []

/-- The syllabicity filter of `PickAll`: when a dotted variant exists for
the same dot-stripped base form, drop the non-dotted variants. -/
def dottedFilter (options : List AnnotatedPhonetized) : List AnnotatedPhonetized :=
  options.filter
    (fun opt =>
      !((dottedBases options).contains (opt.S.filter (· ≠ 46))) ||
        opt.S.contains 46)

/-- Stable insertion of an option into a list sorted by decreasing
confidence (models `sort.SliceStable` with `Ci > Cj` and index tie-break). -/
def insertDescC (x : AnnotatedPhonetized) :
    List AnnotatedPhonetized → List AnnotatedPhonetized
  | [] => [x]
  | y :: ys => if y.C ≤ x.C then x :: y :: ys else y :: insertDescC x ys

/-- Stable sort by decreasing confidence. -/
def sortDescC (l : List AnnotatedPhonetized) : List AnnotatedPhonetized :=
  l.foldr insertDescC []

/-- Models `Picker.PickAll` (`line` is accepted but unused, as in the source). -/
def PickAll (dict : Dictionary) (candidateKeys : List Str) (surface : Str)
    (line : Str) : List AnnotatedPhonetized :=
  if candidateKeys = [] ∨ dict = [] then []
  else
    let normalizedSurface := NormalizeString surface
    let st := candidateKeys.foldl (pickKeyStep dict normalizedSurface) ([], [])
    if st.1 = [] then []
    else sortDescC (dottedFilter st.1)

/-! ## Determinist (scanner) -/

/-- Models `g2p.DeterministOptions`. -/
structure DeterministOptions where
  DiacriticInsensitive : Bool
  AllowPartialMatch : Bool
  deriving Repr, DecidableEq

/-- Models `DefaultDeterministOptions`: strict scan, partial matches allowed. -/
def DefaultDeterministOptions : DeterministOptions :=
  ⟨false, true⟩

/-- Models `g2p.Determinist` (the picker is stateless and needs no field). -/
structure Determinist where
  langDict : Dictionary
  langDictNormKeyMap : KeyMap
  langTolerantKeyMap : KeyMap
  langMaxKeyLen : Nat
  options : DeterministOptions
  delimiters : Option (List Nat)

/-- Models `NewDeterministWithOptions`. -/
def NewDeterministWithOptions (langDict : Dictionary)
    (opts : DeterministOptions) : Determinist :=
  let langNorm := NormalizedKeys langDict
  { langDict := langDict
    langDictNormKeyMap := langNorm
    langTolerantKeyMap :=
      if langNorm ≠ [] then buildDiacriticInsensitiveKeyMap langNorm else []
    langMaxKeyLen := MaxKeyLen langDict
    options := opts
    delimiters := none }

/-- Models `NewDeterminist`: defaults. -/
def NewDeterminist (langDict : Dictionary) : Determinist :=
  NewDeterministWithOptions langDict DefaultDeterministOptions

/-- Models `Determinist.SetDelimiters`. -/
def SetDelimiters (d : Determinist) (delims : List Nat) : Determinist :=
  if delims = [] then { d with delimiters := none }
  else { d with delimiters := some delims }

/-- Models `Determinist.isDelimiterRune`: whitespace is always a delimiter; other
runes are delimiters per the custom set, or punctuation by default. -/
def isDelimiterRune (d : Determinist) (r : Nat) : Bool :=
  if goIsSpace r then true
  else
    match d.delimiters with
    | none => goIsPunct r
    | some ds => ds.contains r

/-- Models `Determinist.candidateIsWholeExpression`. -/
def candidateIsWholeExpression (d : Determinist) (runes : Str)
    (start length : Nat) : Bool :=
  if length = 0 then false
  else if runes.length ≤ start then false
  else if runes.length < start + length then false
  else
    (start == 0 || isDelimiterRune d (runes.getD (start - 1) 0)) &&
    (start + length == runes.length ||
      isDelimiterRune d (runes.getD (start + length) 0))

/-- The candidate test at position `i`, length `l`, inside
`scanSegment`'s inner loop: whitespace-end check, boundary check,
key-map lookup and `PickAll`; returns the pronunciation variants when
the candidate is accepted. -/
def matchAt (d : Determinist) (opts : DeterministOptions) (text : Str)
    (dictionary : Dictionary) (normalized : KeyMap)
    (normalizeCandidate : Str → Str) (line : Str) (i l : Nat) :
    Option (List AnnotatedPhonetized) :=
  if goIsSpace (text.getD (i + l - 1) 0) then none
  else if !opts.AllowPartialMatch && !candidateIsWholeExpression d text i l then
    none
  else
    let candidate := substr text i l
    let normCandidate := normalizeCandidate candidate
    match dictLookup normalized normCandidate with
    | none => none
    | some keys =>
      if keys = [] then none
      else
        let options := PickAll dictionary keys candidate line
        if options = [] then none else some options

/-- The inner loop of `scanSegment`: try candidate lengths from `l` down
to 1, returning the first accepted candidate's length and variants. -/
def findMatch (d : Determinist) (opts : DeterministOptions) (text : Str)
    (dictionary : Dictionary) (normalized : KeyMap)
    (normalizeCandidate : Str → Str) (line : Str) (i : Nat) :
    Nat → Option (Nat × List AnnotatedPhonetized)
  | 0 => none
  | l + 1 =>
    match matchAt d opts text dictionary normalized normalizeCandidate line
        i (l + 1) with
    | some o => some (l + 1, o)
    | none =>
      findMatch d opts text dictionary normalized normalizeCandidate line i l

/-- The trailing flush of `scanSegment`'s loop: emit the pending raw
span `[s, n)` when one is open. -/
def flushRaw (text : Str) (offset : Nat) (cs : Option Nat) : List RawText :=
  match cs with
  | some s =>
    if s < text.length then
      [⟨substr text s (text.length - s), offset + s, text.length - s⟩]
    else []
  | none => []

/-- The pending raw span flushed when a match is found at position `i`:
the runes `[s, i)` when a raw start `s < i` is open. -/
def flushAt (text : Str) (offset i : Nat) (cs : Option Nat) :
    List RawText :=
  match cs with
  | some s =>
    if s < i then [⟨substr text s (i - s), offset + s, i - s⟩] else []
  | none => []

/-- The body of one iteration of `scanSegment`'s loop, parameterized by
the continuation `recurse` used for the next iteration. -/
def scanLoopStep (d : Determinist) (opts : DeterministOptions) (text : Str)
    (offset : Nat) (dictionary : Dictionary) (normalized : KeyMap)
    (maxKeyLen : Nat) (normalizeCandidate : Str → Str)
    (passConfidence : ℚ) (line : Str)
    (recurse : Nat → Option Nat → List Fragment × List RawText)
    (i : Nat) (cs : Option Nat) : List Fragment × List RawText :=
  if i < text.length then
    if goIsSpace (text.getD i 0) then
      recurse (i + 1) (some (cs.getD i))
    else
      match findMatch d opts text dictionary normalized
          normalizeCandidate line i (min maxKeyLen (text.length - i)) with
      | some (l, options) =>
        ((options.enum.map
            (fun vo =>
              ⟨vo.2.S, offset + i, l, passConfidence * vo.2.C, vo.1⟩)) ++
          (recurse (i + l) none).1,
         flushAt text offset i cs ++ (recurse (i + l) none).2)
      | none => recurse (i + 1) (some (cs.getD i))
  else ([], flushRaw text offset cs)

/-- The main loop of `scanSegment`, from rune position `i`, with `cs`
the pending raw-text start (`currentRawStart`, `none` for `-1`).

The loop advances `i` by at least one rune per iteration, so `fuel`
bounds the remaining iterations; callers pass `text.length + 1 - i`
(any value `> text.length - i` computes the same function, the
exhausted-fuel base case replicating the `i ≥ n` exit of the loop). -/
def scanLoop (d : Determinist) (opts : DeterministOptions) (text : Str)
    (offset : Nat) (dictionary : Dictionary) (normalized : KeyMap)
    (maxKeyLen : Nat) (normalizeCandidate : Str → Str)
    (passConfidence : ℚ) (line : Str) :
    (fuel : Nat) → (i : Nat) → (cs : Option Nat) →
    List Fragment × List RawText
  | 0, _, cs => ([], flushRaw text offset cs)
  | fuel + 1, i, cs =>
    scanLoopStep d opts text offset dictionary normalized maxKeyLen
      normalizeCandidate passConfidence line
      (scanLoop d opts text offset dictionary normalized maxKeyLen
        normalizeCandidate passConfidence line fuel) i cs

/-- Models `Determinist.scanSegment`: greedy longest-match scan of one segment. -/
def scanSegment (d : Determinist) (text : Str) (offset : Nat)
    (dictionary : Dictionary) (normalized : KeyMap) (maxKeyLen : Nat)
    (normalizeCandidate : Str → Str) (passConfidence : ℚ) (line : Str)
    (opts : DeterministOptions) : List Fragment × List RawText :=
  if text.length = 0 then ([], [])
  else if maxKeyLen = 0 ∨ normalized = [] ∨ dictionary = [] then
    ([], [⟨text, offset, text.length⟩])
  else
    scanLoop d opts text offset dictionary normalized maxKeyLen
      normalizeCandidate passConfidence line (text.length + 1) 0 none

/-! ## Fragment ordering and raw-span merging -/

/-- The global fragment order: position ascending, then span length
descending, then confidence descending, then variant ascending
(the reflexive total order corresponding to `sortFragments`'s
comparator). -/
def fragLE (a b : Fragment) : Prop :=
  a.Pos < b.Pos ∨
    (a.Pos = b.Pos ∧
      (b.Len < a.Len ∨
        (a.Len = b.Len ∧
          (b.Confidence < a.Confidence ∨
            (a.Confidence = b.Confidence ∧ a.Variant ≤ b.Variant)))))

instance : DecidableRel fragLE := fun a b => by
  unfold fragLE; infer_instance

instance : IsTotal Fragment fragLE :=
  ⟨by
    intro a b
    unfold fragLE
    rcases lt_trichotomy a.Pos b.Pos with h | h | h
    · exact Or.inl (Or.inl h)
    · rcases lt_trichotomy a.Len b.Len with hl | hl | hl
      · exact Or.inr (Or.inr ⟨h.symm, Or.inl hl⟩)
      · rcases lt_trichotomy a.Confidence b.Confidence with hc | hc | hc
        · exact Or.inr (Or.inr ⟨h.symm, Or.inr ⟨hl.symm, Or.inl hc⟩⟩)
        · rcases Nat.le_total a.Variant b.Variant with hv | hv
          · exact Or.inl (Or.inr ⟨h, Or.inr ⟨hl, Or.inr ⟨hc, hv⟩⟩⟩)
          · exact Or.inr (Or.inr ⟨h.symm, Or.inr ⟨hl.symm,
              Or.inr ⟨hc.symm, hv⟩⟩⟩)
        · exact Or.inl (Or.inr ⟨h, Or.inr ⟨hl, Or.inl hc⟩⟩)
      · exact Or.inl (Or.inr ⟨h, Or.inl hl⟩)
    · exact Or.inr (Or.inl h)⟩

instance : IsTrans Fragment fragLE :=
  ⟨by
    intro a b c hab hbc
    unfold fragLE at *
    rcases hab with h1 | ⟨e1, r1⟩ <;> rcases hbc with h2 | ⟨e2, r2⟩
    · exact Or.inl (h1.trans h2)
    · exact Or.inl (lt_of_lt_of_eq h1 e2)
    · exact Or.inl (lt_of_eq_of_lt e1 h2)
    · refine Or.inr ⟨e1.trans e2, ?_⟩
      rcases r1 with h1 | ⟨f1, s1⟩ <;> rcases r2 with h2 | ⟨f2, s2⟩
      · exact Or.inl (h2.trans h1)
      · exact Or.inl (lt_of_eq_of_lt f2.symm h1)
      · exact Or.inl (lt_of_lt_of_eq h2 f1.symm)
      · refine Or.inr ⟨f1.trans f2, ?_⟩
        rcases s1 with h1 | ⟨g1, v1⟩ <;> rcases s2 with h2 | ⟨g2, v2⟩
        · exact Or.inl (h2.trans h1)
        · exact Or.inl (lt_of_eq_of_lt g2.symm h1)
        · exact Or.inl (lt_of_lt_of_eq h2 g1.symm)
        · exact Or.inr ⟨g1.trans g2, v1.trans v2⟩⟩

/-- Models `sortFragments`: sorts by position / length / confidence / variant
(`sort.Slice`, modelled as an insertion sort with the same order). -/
def sortFragments (frags : List Fragment) : List Fragment :=
  if frags.length < 2 then frags else List.insertionSort fragLE frags

/-- The raw-span order used by `mergeRawTexts` (position ascending). -/
def rawLE (a b : RawText) : Prop := a.Pos ≤ b.Pos

instance : DecidableRel rawLE := fun a b => by
  unfold rawLE; infer_instance

instance : IsTotal RawText rawLE :=
  ⟨fun a b => Nat.le_total a.Pos b.Pos⟩

instance : IsTrans RawText rawLE :=
  ⟨fun _ _ _ h1 h2 => Nat.le_trans h1 h2⟩

/-- The merging fold of `mergeRawTexts` over the position-sorted spans. -/
def mergeRawTextsAux (current : RawText) : List RawText → List RawText
  | [] => [current]
  | next :: rest =>
    if current.Pos + current.Len = next.Pos then
      mergeRawTextsAux
        ⟨current.Text ++ next.Text, current.Pos, current.Len + next.Len⟩ rest
    else current :: mergeRawTextsAux next rest

/-- Models `mergeRawTexts`: sort by position, then merge adjacent spans. -/
def mergeRawTexts (raws : List RawText) : List RawText :=
  if raws.length < 2 then raws
  else
    match List.insertionSort rawLE raws with
    | [] => []
    | h :: t => mergeRawTextsAux h t

/-! ## The two-pass `scan` and the `Apply` pipeline -/

/-- One step of the tolerant pass of `scan`: rescan a leftover raw span
with the tolerant key map; keep the span verbatim when nothing was
recognized. -/
def scanTolStep (d : Determinist) (line : Str) (opts : DeterministOptions)
    (acc : List Fragment × List RawText) (rt : RawText) :
    List Fragment × List RawText :=
  if (scanSegment d rt.Text rt.Pos d.langDict d.langTolerantKeyMap
      d.langMaxKeyLen tolerantNormalize (9/10) line opts).1 = [] then
    (acc.1, acc.2 ++ [rt])
  else
    (acc.1 ++ (scanSegment d rt.Text rt.Pos d.langDict d.langTolerantKeyMap
        d.langMaxKeyLen tolerantNormalize (9/10) line opts).1,
     acc.2 ++ (scanSegment d rt.Text rt.Pos d.langDict d.langTolerantKeyMap
        d.langMaxKeyLen tolerantNormalize (9/10) line opts).2)

/-- The tail of `scan` past the strict pass: either finish (tolerant
mode off, nothing left raw, or no tolerant keys) or run the tolerant
pass on the remaining raw spans. -/
def scanFinish (d : Determinist) (line : Str) (opts : DeterministOptions)
    (strict : List Fragment × List RawText) :
    List Fragment × List RawText :=
  if !opts.DiacriticInsensitive ∨ strict.2 = [] ∨ d.langTolerantKeyMap = [] then
    (sortFragments strict.1, mergeRawTexts strict.2)
  else
    (sortFragments (strict.2.foldl (scanTolStep d line opts)
        (strict.1, [])).1,
     mergeRawTexts (strict.2.foldl (scanTolStep d line opts)
        (strict.1, [])).2)

/-- Models `Determinist.scan`: strict pass, then (when enabled and useful) the
diacritic-insensitive tolerant pass over the remaining raw spans. -/
def scan (d : Determinist) (text : Str) (opts : DeterministOptions)
    (line : Str) : List Fragment × List RawText :=
  scanFinish d line opts
    (scanSegment d text 0 d.langDict d.langDictNormKeyMap
      d.langMaxKeyLen NormalizeString 1 line opts)

/-- One step of `applyWithOptions`'s loop over the input's raw spans:
scan the span and rebase the new fragments and leftover raw spans by the
span's position. -/
def applyStep (d : Determinist) (opts : DeterministOptions) (T : Str)
    (acc : List Fragment × List RawText) (raw : RawText) :
    List Fragment × List RawText :=
  (acc.1 ++ (scan d raw.Text opts T).1.map
      (fun f => { f with Pos := f.Pos + raw.Pos }),
   acc.2 ++ (scan d raw.Text opts T).2.map
      (fun rt => { rt with Pos := rt.Pos + raw.Pos }))

/-- Models `Determinist.applyWithOptions`: scan each stored raw span of the
input, rebase positions, merge with pre-existing fragments, sort and
merge.  Returns the input unchanged when there is no text or no raw
span. -/
def applyWithOptions (d : Determinist) (input : Result)
    (opts : DeterministOptions) : Result :=
  if input.Text = [] ∨ input.RawTexts = [] then input
  else
    { Text := input.Text
      Fragments := sortFragments
        (input.RawTexts.foldl (applyStep d opts input.Text)
          (input.Fragments, [])).1
      RawTexts := mergeRawTexts
        (input.RawTexts.foldl (applyStep d opts input.Text)
          (input.Fragments, [])).2 }

/-- Models `Determinist.Apply` (the `Processor` interface). -/
def Apply (d : Determinist) (input : Result) : Result :=
  applyWithOptions d input d.options

/-- Models `Determinist.ScanWithOptions`: wrap the text in a Result with a
single raw span covering it, then apply. -/
def ScanWithOptions (d : Determinist) (text : Str)
    (opts : DeterministOptions) : Result :=
  applyWithOptions d
    { Text := text
      Fragments := []
      RawTexts :=
        if 0 < text.length then [⟨text, 0, text.length⟩] else [] }
    opts

/-- Models `Determinist.Scan`: `ScanWithOptions` with the instance options. -/
def Scan (d : Determinist) (text : Str) : Result :=
  ScanWithOptions d text d.options

/-! ## Loader framework and merge modes (`pkg/phono/loader.go`, `consts.go`)

The I/O layer (file opening, format sniffing) is abstracted away: a
source is modelled by the stream of `(expression, phones)` entries its
loader emits, together with a flag telling whether the loader then
fails (a line loader emits the entries parsed before the offending
line; the gob loader fails before emitting anything).  The merge
engine itself (`runLoader`'s `emit` closure and state handling) is a
direct translation of the Go code. -/

/-- Models `phono.MergeMode`. -/
inductive MergeMode where
  | Append
  | Prepend
  | NoOverride
  | Replace
  deriving Repr, DecidableEq

/-- Models `phono.Representation`: the merge accumulator.
`SeenWordPron` holds the Go map keys `expression + "\x00" + pron`. -/
structure Representation where
  Entries : Dictionary
  SeenWordPron : List Str
  PreloadedWords : List Str
  deriving Repr, DecidableEq

/-- Models `phono.NewRepresentation`. -/
def NewRepresentation : Representation := ⟨[], [], []⟩

/-- Go map read `rep.Entries[expression]` (missing key reads as `nil`). -/
def dictGet (d : Dictionary) (k : Str) : List Str :=
  (dictLookup d k).getD []

/-- Go map write `rep.Entries[k] = v`. -/
def dictSet (d : Dictionary) (k : Str) (v : List Str) : Dictionary :=
  match d with
  | [] => [(k, v)]
  | (k', v') :: rest =>
      if k' = k then (k, v) :: rest else (k', v') :: dictSet rest k v

/-- Add a member to a modelled Go set if absent. -/
def setAdd (s : List Str) (x : Str) : List Str :=
  if s.contains x then s else s ++ [x]

/-- The per-`runLoader` state: the accumulator plus the
`datasetExpressions` and `replaced` bookkeeping maps. -/
structure LoaderState where
  rep : Representation
  datasetExpressions : List Str
  replaced : List Str
  deriving Repr, DecidableEq

/-- Models the `emit` closure of `runLoader`: trim, skip empties, apply
`MergeMode` semantics and global `(expression, phonetization)`
de-duplication. -/
def emitEntry (mode : MergeMode) (st : LoaderState) (expression0 : Str)
    (phones : List Str) : LoaderState :=
  let expression := trimSpace expression0
  if expression = [] ∨ phones = [] then st
  else
    let st := { st with
      datasetExpressions := st.datasetExpressions ++ [expression] }
    let baseKey := expression ++ [0]
    if mode = .NoOverride ∧ st.rep.PreloadedWords.contains expression then st
    else
      let st :=
        if mode = .Replace ∧ st.rep.PreloadedWords.contains expression ∧
            ¬st.replaced.contains expression then
          let olds :=
            (dictGet st.rep.Entries expression).map (fun old => baseKey ++ old)
          { st with
            rep := { st.rep with
              SeenWordPron :=
                st.rep.SeenWordPron.filter (fun k => !olds.contains k)
              Entries := dictSet st.rep.Entries expression [] }
            replaced := st.replaced ++ [expression] }
        else st
      phones.foldl
        (fun st' p0 =>
          let p := trimSpace p0
          if p = [] then st'
          else
            let key := baseKey ++ p
            if st'.rep.SeenWordPron.contains key then st'
            else
              let entries' :=
                match mode with
                | .Prepend =>
                  dictSet st'.rep.Entries expression
                    (p :: dictGet st'.rep.Entries expression)
                | _ =>
                  dictSet st'.rep.Entries expression
                    (dictGet st'.rep.Entries expression ++ [p])
              { st' with
                rep := { st'.rep with
                  SeenWordPron := st'.rep.SeenWordPron ++ [key]
                  Entries := entries' } })
        st

/-- A dictionary source, abstracted to the entries its loader emits and
whether the loader then fails. -/
structure Source where
  emissions : List (Str × List Str)
  fails : Bool
  deriving Repr, DecidableEq

/-- Models `runLoader`: run the loader's emissions through `emit`; on
success, record the source's expressions as preloaded; on failure the
accumulator keeps the state reached so far (the Go function returns the
wrapped error without any rollback). -/
def runLoader (mode : MergeMode) (src : Source) (rep : Representation) :
    Representation × Bool :=
  let st := src.emissions.foldl
    (fun st e => emitEntry mode st e.1 e.2) ⟨rep, [], []⟩
  if src.fails then (st.rep, false)
  else
    ({ st.rep with
        PreloadedWords := st.datasetExpressions.foldl setAdd
          st.rep.PreloadedWords },
      true)

/-- Models `LoadInto`: process the sources in order, stopping at the
first failing one; the returned flag is `false` when some source
failed (the Go function returns its error). -/
def loadIntoModel (rep : Representation) (mode : MergeMode) :
    List Source → Representation × Bool
  | [] => (rep, true)
  | s :: rest =>
    match runLoader mode s rep with
    | (rep', true) => loadIntoModel rep' mode rest
    | (rep', false) => (rep', false)

/-- Models `LoadPaths` / `LoadBlobs`: load into a fresh accumulator and
return its entries, or nothing on error. -/
def loadPathsModel (mode : MergeMode) (sources : List Source) :
    Option Dictionary :=
  let r := loadIntoModel NewRepresentation mode sources
  if r.2 then some r.1.Entries else none

/-! ## Text-format line parsing (`parse_utils.go`, `slashed_txt.go`) -/

/-- Models `stripInlineCommentAndTrim`: trim, drop empty and whole-line
comments, and cut everything from the first `#` (wherever it occurs). -/
def stripInlineCommentAndTrim (line : Str) : Str :=
  let line := trimSpace line
  if line = [] ∨ line.head? = some 35 then []
  else if line.contains 35 then trimSpace (line.takeWhile (· ≠ 35))
  else line

/-- Split a string at its first occurrence of `sep`
(`strings.SplitN(s, sep, 2)` when it returns two parts). -/
def splitFirst (s : Str) (sep : Nat) : Option (Str × Str) :=
  if s.contains sep then
    some (s.takeWhile (· ≠ sep), (s.dropWhile (· ≠ sep)).tail)
  else none

/-- Models `parseTextIpaLine` (piped text format,
`<expression>\t<phon1> | <phon2> | ...`); `none` stands for the Go
`("", nil, nil)` no-entry result. -/
def parseTextIpaLine (line : Str) : Option (Str × List Str) :=
  let line := stripInlineCommentAndTrim line
  if line = [] then none
  else
    match splitFirst line 9 with
    | none => none
    | some (l, r) =>
      let expression := trimSpace l
      let rawPhones := trimSpace r
      if expression = [] ∨ rawPhones = [] then none
      else
        let phones := (rawPhones.splitOn 124).filterMap
          (fun c => let p := trimSpace c; if p = [] then none else some p)
        if phones = [] then none else some (expression, phones)

/-! ## Concrete scenario inputs

Nat spellings: `"le"` = `[108,101]`, `"lə"` = `[108,0x259]`,
`"benoit"` = `[98,101,110,111,105,116]`, `"bənwa"` = `[98,0x259,110,119,97]`,
`"Le GrosBenoit"` = `[76,101,32,71,114,111,115,66,101,110,111,105,116]`,
`"garçon"` = `[103,97,114,0xE7,111,110]`, `"garcon"` = `[103,97,114,99,111,110]`,
`"garsɔ̃"` = `[103,97,114,115,0x254,0x303]`. -/

/-- The S1 dictionary `{le → lə, benoit → bənwa}`. -/
def dictS1 : Dictionary :=
  [([108, 101], [[108, 0x259]]),
   ([98, 101, 110, 111, 105, 116], [[98, 0x259, 110, 119, 97]])]

/-- A Determinist over `dictS1` with the default options
(`AllowPartialMatch = true`). -/
def detS1 : Determinist := NewDeterminist dictS1

/-- The S1 input text `"Le GrosBenoit"`. -/
def textS1 : Str := [76, 101, 32, 71, 114, 111, 115, 66, 101, 110, 111, 105, 116]

/-- The S3 dictionary `{garçon → garsɔ̃}`. -/
def dictS3 : Dictionary :=
  [([103, 97, 114, 0xE7, 111, 110], [[103, 97, 114, 115, 0x254, 0x303]])]

/-- A Determinist over `dictS3` with `DiacriticInsensitive = true`. -/
def detS3 : Determinist := NewDeterministWithOptions dictS3 ⟨true, true⟩

/-- The dictionary `{a → A, .b → B}` used to exhibit a boundary-rule
violation through the tolerant pass. -/
def dictBnd : Dictionary := [([97], [[65]]), ([46, 98], [[66]])]

/-- A Determinist over `dictBnd` with `DiacriticInsensitive = true` and
`AllowPartialMatch = false`. -/
def detBnd : Determinist := NewDeterministWithOptions dictBnd ⟨true, false⟩

/-- A Determinist over `{le → lə}` with default options. -/
def detLe : Determinist := NewDeterminist [([108, 101], [[108, 0x259]])]

/-- An input Result with non-empty text, no fragments and no raw spans. -/
def inputNoRaws : Result := ⟨[108, 101], [], []⟩

/-- An input Result with non-empty text, unsorted fragments and no raw
spans. -/
def inputUnsorted : Result :=
  ⟨[97, 98], [⟨[120], 1, 1, 1, 0⟩, ⟨[121], 0, 1, 1, 0⟩], []⟩

/-- The accumulator preloaded with `{a → [x]}` (`a` = `[97]`,
`x` = `[120]`, `y` = `[121]`). -/
def repAX : Representation :=
  (runLoader .Append ⟨[([97], [[120]])], false⟩ NewRepresentation).1

/-- A source contributing `{a → [y]}`. -/
def srcAY : Source := ⟨[([97], [[121]])], false⟩

/-- A source that loads one entry and succeeds. -/
def srcGood : Source := ⟨[([97], [[120]])], false⟩

/-- A source that fails before emitting anything (a gob decode
failure). -/
def srcBadGob : Source := ⟨[], true⟩

/-- The line `"a#b\tphon"` (`#` directly attached to `a`). -/
def lineHash : Str := [97, 35, 98, 9, 112, 104, 111, 110]

/-- Raw-span / text correspondence: the span's `Text` is the rune
substring of `t` at `[Pos, Pos+Len)`, which lies inside `t`. -/
def RawOK (t : Str) (rt : RawText) : Prop :=
  rt.Text = substr t rt.Pos rt.Len ∧ rt.Pos + rt.Len ≤ t.length

/-- The per-rune action of `removeDiacritics`: NFD-decompose one rune
and drop its nonspacing marks. -/
def aStr (c : Nat) : List Nat :=
  (nfdRune c).filter (fun x => !goIsMn x)

/-! ## General lemmas -/

theorem removeDiacritics_eq_flatMap (s : Str) :
    removeDiacritics s = s.flatMap aStr := by
  unfold removeDiacritics aStr
  rw [List.filter_flatMap]

theorem goToLower_of_ge {c : Nat} (h : 1024 ≤ c) : goToLower c = c := by
  unfold goToLower
  split_ifs with h1 h2 h3 <;> omega

theorem lookup_eq_none_of_keys_lt {tbl : List (Nat × List Nat)}
    (hk : ∀ p ∈ tbl, p.1 < 1024) {c : Nat} (hc : 1024 ≤ c) :
    tbl.lookup c = none := by
  induction tbl with
  | nil => rfl
  | cons a t ih =>
    have ha := hk a (by simp)
    have hne : (c == a.1) = false := by
      rw [beq_eq_false_iff_ne]
      omega
    match a with
    | (k, v) =>
      simp only [List.lookup, hne]
      exact ih (fun p hp => hk p (List.mem_cons_of_mem (k, v) hp))

theorem nfdRune_of_ge {c : Nat} (h : 1024 ≤ c) : nfdRune c = [c] := by
  unfold nfdRune
  rw [lookup_eq_none_of_keys_lt (by decide) h]

theorem goIsMn_of_ge {c : Nat} (h : 1024 ≤ c) : goIsMn c = false := by
  unfold goIsMn
  rw [Bool.and_eq_false_iff]
  right
  rw [decide_eq_false_iff_not]
  omega

theorem aStr_of_ge {c : Nat} (h : 1024 ≤ c) : aStr c = [c] := by
  unfold aStr
  rw [nfdRune_of_ge h]
  rw [List.filter_cons]
  simp [goIsMn_of_ge h]

set_option maxRecDepth 8192 in
set_option maxHeartbeats 4000000 in
theorem astr_lower (c : Nat) :
    lowerStr (aStr (goToLower c)) = lowerStr (aStr c) := by
  by_cases h : c < 1024
  · exact (by decide :
      ∀ c' < 1024, lowerStr (aStr (goToLower c')) = lowerStr (aStr c')) c h
  · rw [goToLower_of_ge (by omega)]

set_option maxRecDepth 8192 in
set_option maxHeartbeats 2000000 in
theorem space_lower (c : Nat) : goIsSpace (goToLower c) = goIsSpace c := by
  by_cases h : c < 1024
  · exact (by decide :
      ∀ c' < 1024, goIsSpace (goToLower c') = goIsSpace c') c h
  · rw [goToLower_of_ge (by omega)]

set_option maxRecDepth 8192 in
set_option maxHeartbeats 4000000 in
theorem aStr_of_space {c : Nat} (h : goIsSpace c = true) : aStr c = [c] := by
  by_cases hc : c < 1024
  · exact (by decide :
      ∀ c' < 1024, goIsSpace c' = true → aStr c' = [c']) c hc h
  · exact aStr_of_ge (by omega)

theorem lowerStr_flatMap_aStr (u : Str) :
    lowerStr ((lowerStr u).flatMap aStr) = lowerStr (u.flatMap aStr) := by
  unfold lowerStr
  rw [List.flatMap_map, List.map_flatMap, List.map_flatMap]
  have : (fun c => List.map goToLower (aStr (goToLower c))) =
      (fun c => List.map goToLower (aStr c)) := by
    funext c
    exact astr_lower c
  rw [this]

theorem trimLeft_lowerStr (u : Str) :
    trimLeft (lowerStr u) = lowerStr (trimLeft u) := by
  unfold trimLeft lowerStr
  rw [List.dropWhile_map]
  have : (goIsSpace ∘ goToLower) = goIsSpace := by
    funext c; exact space_lower c
  rw [this]

theorem lowerStr_reverse (u : Str) :
    (lowerStr u).reverse = lowerStr u.reverse := by
  unfold lowerStr
  rw [List.map_reverse]

theorem trimRight_lowerStr (u : Str) :
    trimRight (lowerStr u) = lowerStr (trimRight u) := by
  unfold trimRight
  rw [lowerStr_reverse, trimLeft_lowerStr, lowerStr_reverse]

theorem trimSpace_lowerStr (u : Str) :
    trimSpace (lowerStr u) = lowerStr (trimSpace u) := by
  unfold trimSpace
  rw [trimLeft_lowerStr, trimRight_lowerStr]

theorem flatMap_aStr_of_spaces {p : Str}
    (hp : ∀ c ∈ p, goIsSpace c = true) : p.flatMap aStr = p := by
  induction p with
  | nil => rfl
  | cons a t ih =>
    rw [List.flatMap_cons, aStr_of_space (hp a (by simp)),
      ih (fun c hc => hp c (List.mem_cons_of_mem a hc))]
    rfl

theorem dropWhile_spaces_eat {p : Nat → Bool} {y : Str}
    (hy : ∀ c ∈ y, p c = true) (z : Str) :
    (y ++ z).dropWhile p = z.dropWhile p := by
  induction y with
  | nil => rfl
  | cons a t ih =>
    rw [List.cons_append, List.dropWhile_cons, if_pos (hy a (by simp))]
    exact ih (fun c hc => hy c (List.mem_cons_of_mem a hc))

theorem dropWhile_append_of_ne_nil {p : Nat → Bool} {z : Str}
    (hz : z.dropWhile p ≠ []) (q : Str) :
    (z ++ q).dropWhile p = z.dropWhile p ++ q := by
  induction z with
  | nil => simp at hz
  | cons a t ih =>
    by_cases ha : p a
    · rw [List.dropWhile_cons, if_pos ha] at hz
      simp only [List.cons_append, List.dropWhile_cons, ha, if_true]
      exact ih hz
    · simp only [List.cons_append, List.dropWhile_cons, ha, if_false]
      rfl

theorem trimRight_append_spaces {q : Str}
    (hq : ∀ c ∈ q, goIsSpace c = true) (y : Str) :
    trimRight (y ++ q) = trimRight y := by
  unfold trimRight trimLeft
  rw [List.reverse_append]
  rw [dropWhile_spaces_eat (fun c hc => hq c (List.mem_reverse.mp hc))]

theorem trimSpace_append_left {p : Str}
    (hp : ∀ c ∈ p, goIsSpace c = true) (z : Str) :
    trimSpace (p ++ z) = trimSpace z := by
  unfold trimSpace trimLeft
  rw [dropWhile_spaces_eat hp]

theorem trimSpace_append_right {q : Str}
    (hq : ∀ c ∈ q, goIsSpace c = true) (z : Str) :
    trimSpace (z ++ q) = trimSpace z := by
  by_cases hz : z.dropWhile goIsSpace = []
  · have hzs : ∀ c ∈ z, goIsSpace c = true :=
      List.dropWhile_eq_nil_iff.mp hz
    unfold trimSpace trimLeft
    rw [hz, dropWhile_spaces_eat hzs, List.dropWhile_eq_nil_iff.mpr hq]
  · unfold trimSpace trimLeft
    rw [dropWhile_append_of_ne_nil hz]
    exact trimRight_append_spaces hq _

theorem trim_decomp (s : Str) :
    ∃ p q, s = p ++ trimSpace s ++ q ∧
      (∀ c ∈ p, goIsSpace c = true) ∧ (∀ c ∈ q, goIsSpace c = true) := by
  have h2 : trimLeft s =
      trimSpace s ++ ((trimLeft s).reverse.takeWhile goIsSpace).reverse :=
    calc trimLeft s = (trimLeft s).reverse.reverse :=
        (List.reverse_reverse _).symm
    _ = ((trimLeft s).reverse.takeWhile goIsSpace ++
        (trimLeft s).reverse.dropWhile goIsSpace).reverse := by
      rw [List.takeWhile_append_dropWhile]
    _ = ((trimLeft s).reverse.dropWhile goIsSpace).reverse ++
        ((trimLeft s).reverse.takeWhile goIsSpace).reverse := by
      rw [List.reverse_append]
    _ = trimSpace s ++ ((trimLeft s).reverse.takeWhile goIsSpace).reverse :=
      rfl
  refine ⟨s.takeWhile goIsSpace,
    ((trimLeft s).reverse.takeWhile goIsSpace).reverse, ?_, ?_, ?_⟩
  · have h2' : s.dropWhile goIsSpace =
        trimSpace s ++ ((trimLeft s).reverse.takeWhile goIsSpace).reverse := h2
    conv_lhs => rw [← @List.takeWhile_append_dropWhile _ goIsSpace s, h2']
    rw [List.append_assoc]
  · intro c hc
    exact List.mem_takeWhile_imp hc
  · intro c hc
    exact List.mem_takeWhile_imp (List.mem_reverse.mp hc)

theorem tolerantNormalize_normalizeString (s : Str) :
    tolerantNormalize (NormalizeString s) = tolerantNormalize s := by
  have key : ∀ u : Str, tolerantNormalize u =
      lowerStr (trimSpace (u.flatMap aStr)) := by
    intro u
    unfold tolerantNormalize NormalizeString
    rw [removeDiacritics_eq_flatMap]
  rw [key, key]
  have h0 : NormalizeString s = lowerStr (trimSpace s) := rfl
  rw [h0, ← trimSpace_lowerStr, lowerStr_flatMap_aStr, trimSpace_lowerStr]
  congr 1
  obtain ⟨p, q, hs, hp, hq⟩ := trim_decomp s
  conv_rhs => rw [hs]
  rw [List.flatMap_append, List.flatMap_append,
    flatMap_aStr_of_spaces hp, flatMap_aStr_of_spaces hq,
    trimSpace_append_right hq, trimSpace_append_left hp]

set_option maxHeartbeats 1600000 in
theorem findMatch_spec {d opts text dictionary normalized normF line i}
    {l0 l : Nat} {o : List AnnotatedPhonetized}
    (h : findMatch d opts text dictionary normalized normF line i l0 =
      some (l, o)) :
    matchAt d opts text dictionary normalized normF line i l = some o ∧
    0 < l ∧ l ≤ l0 ∧
    ∀ l', l < l' → l' ≤ l0 →
      matchAt d opts text dictionary normalized normF line i l' = none := by
  induction l0 with
  | zero => exact absurd h (by simp [findMatch])
  | succ k ih =>
    unfold findMatch at h
    rcases hm : matchAt d opts text dictionary normalized normF line i
        (k + 1) with _ | o'
    · rw [hm] at h
      obtain ⟨h1, h2, h3, h4⟩ := ih h
      refine ⟨h1, h2, h3.trans (Nat.le_succ k), fun l' hl hl' => ?_⟩
      rcases Nat.lt_or_ge l' (k + 1) with hk | hk
      · exact h4 l' hl (by omega)
      · have : l' = k + 1 := by omega
        subst this; exact hm
    · rw [hm] at h
      simp only [Option.some.injEq, Prod.mk.injEq] at h
      obtain ⟨hl, ho⟩ := h
      subst hl; subst ho
      exact ⟨hm, Nat.succ_pos k, Nat.le_refl _, fun l' hl hl' => by omega⟩

theorem dropWhile_append_stop {p : Nat → Bool} {m : Nat}
    (hm : p m = false) (y z : Str) :
    (y ++ m :: z).dropWhile p = y.dropWhile p ++ m :: z := by
  induction y with
  | nil => simp [List.dropWhile_cons, hm]
  | cons a y' ih =>
    by_cases ha : p a
    · simp [List.dropWhile_cons, ha, ih]
    · simp [List.dropWhile_cons, ha]

theorem takeWhile_append_all {p : Nat → Bool} {y : Str}
    (hy : ∀ x ∈ y, p x = true) (z : Str) :
    (y ++ z).takeWhile p = y ++ z.takeWhile p := by
  induction y with
  | nil => simp
  | cons a y' ih =>
    have ha := hy a (by simp)
    simp only [List.cons_append, List.takeWhile_cons, ha]
    simp [ih (fun x hx => hy x (by simp [hx]))]

theorem trimLeft_cons_of_nonspace {c : Nat} (hc : goIsSpace c = false)
    (l : Str) : trimLeft (c :: l) = c :: l := by
  simp [trimLeft, List.dropWhile_cons, hc]

theorem trimRight_append_nonspace {m : Nat} (hm : goIsSpace m = false)
    (l1 l2 : Str) : trimRight (l1 ++ m :: l2) = l1 ++ m :: trimRight l2 := by
  unfold trimRight trimLeft
  rw [List.reverse_append, List.reverse_cons, List.append_assoc,
    List.singleton_append, dropWhile_append_stop hm, List.reverse_append,
    List.reverse_cons, List.reverse_reverse]
  simp

theorem runLoader_snd (mode : MergeMode) (src : Source)
    (rep : Representation) : (runLoader mode src rep).2 = !src.fails := by
  unfold runLoader
  cases h : src.fails <;> simp [h]

theorem mem_sortFragments {f : Fragment} {l : List Fragment} :
    f ∈ sortFragments l ↔ f ∈ l := by
  unfold sortFragments
  split
  · exact Iff.rfl
  · exact List.mem_insertionSort fragLE

theorem sortFragments_sorted (l : List Fragment) :
    List.Sorted fragLE (sortFragments l) := by
  unfold sortFragments
  split
  · rename_i h
    match l, h with
    | [], _ => exact List.sorted_nil
    | [a], _ => exact List.sorted_singleton a
  · exact List.sorted_insertionSort fragLE l

theorem lookup_some_mem {l : List (Str × List Str)} {a : Str}
    {b : List Str} (h : l.lookup a = some b) : (a, b) ∈ l := by
  induction l with
  | nil => simp [List.lookup] at h
  | cons e t ih =>
    match e with
    | (k, v) =>
      by_cases hk : a = k
      · subst hk
        simp only [List.lookup, beq_self_eq_true] at h
        cases h
        exact List.mem_cons_self _ _
      · rw [List.lookup] at h
        simp only [beq_eq_false_iff_ne.mpr hk] at h
        exact List.mem_cons_of_mem _ (ih h)

theorem foldl_max_ge_init (d : Dictionary) (init : Nat) :
    init ≤ d.foldl (fun acc kv => max acc kv.1.length) init := by
  induction d generalizing init with
  | nil => exact Nat.le_refl _
  | cons e t ih =>
    exact le_trans (Nat.le_max_left init e.1.length) (ih _)

theorem le_foldl_max {d : Dictionary} {k : Str} {v : List Str}
    (h : (k, v) ∈ d) (init : Nat) :
    k.length ≤ d.foldl (fun acc kv => max acc kv.1.length) init := by
  induction d generalizing init with
  | nil => simp at h
  | cons e t ih =>
    rcases List.mem_cons.mp h with he | ht
    · subst he
      exact le_trans (Nat.le_max_right init k.length) (foldl_max_ge_init t _)
    · exact ih ht _

theorem le_MaxKeyLen {dict : Dictionary} {k : Str} {v : List Str}
    (h : (k, v) ∈ dict) : k.length ≤ MaxKeyLen dict :=
  le_foldl_max h 0

theorem dictLookup_keyMapAdd (m : KeyMap) (k v k' : Str) :
    dictLookup (keyMapAdd m k v) k' =
      if k' = k then some ((dictLookup m k).getD [] ++ [v])
      else dictLookup m k' := by
  induction m with
  | nil =>
    by_cases h : k' = k
    · subst h; simp [keyMapAdd, dictLookup, List.lookup]
    · simp [keyMapAdd, dictLookup, List.lookup, if_neg h,
        beq_eq_false_iff_ne.mpr h]
  | cons e rest ih =>
    match e with
    | (a, vs) =>
      by_cases hak : a = k
      · subst hak
        by_cases h : k' = a
        · subst h
          simp [keyMapAdd, dictLookup, List.lookup]
        · simp [keyMapAdd, dictLookup, List.lookup, if_neg h,
            beq_eq_false_iff_ne.mpr h]
      · by_cases h : k' = a
        · subst h
          have hk : ¬ k' = k := fun hh => hak (hh ▸ rfl)
          simp [keyMapAdd, dictLookup, List.lookup, if_neg hak, if_neg hk,
            beq_eq_false_iff_ne.mpr (fun hh => hak hh.symm)]
        · have h1 : dictLookup ((a, vs) :: rest) k' = dictLookup rest k' := by
            simp [dictLookup, List.lookup, beq_eq_false_iff_ne.mpr h]
          have h2 : dictLookup ((a, vs) :: rest) k = dictLookup rest k := by
            simp [dictLookup, List.lookup,
              beq_eq_false_iff_ne.mpr (fun hh => hak hh.symm)]
          rw [keyMapAdd, if_neg hak]
          rw [show dictLookup ((a, vs) :: keyMapAdd rest k v) k' =
              dictLookup (keyMapAdd rest k v) k' by
            simp [dictLookup, List.lookup, beq_eq_false_iff_ne.mpr h]]
          rw [ih, h1, h2]

theorem mem_dictLookup_keyMapAdd {m : KeyMap} {k2 v2 nk : Str} {x : Str}
    (h : x ∈ (dictLookup m nk).getD []) :
    x ∈ (dictLookup (keyMapAdd m k2 v2) nk).getD [] := by
  rw [dictLookup_keyMapAdd]
  by_cases hk : nk = k2
  · rw [if_pos hk, Option.getD_some]
    exact List.mem_append_left _ (hk ▸ h)
  · rw [if_neg hk]
    exact h

theorem foldl_keyMapAdd_mem {k : Str} {v : List Str} :
    ∀ (dict : Dictionary) (m : KeyMap),
    ((k, v) ∈ dict ∨ k ∈ (dictLookup m (NormalizeString k)).getD []) →
    k ∈ (dictLookup
      (dict.foldl (fun m' kv => keyMapAdd m' (NormalizeString kv.1) kv.1) m)
      (NormalizeString k)).getD [] := by
  intro dict
  induction dict with
  | nil =>
    intro m h
    rcases h with h | h
    · simp at h
    · exact h
  | cons e rest ih =>
    intro m h
    rw [List.foldl_cons]
    apply ih
    rcases h with h | h
    · rcases List.mem_cons.mp h with he | ht
      · right
        have hk : k = e.1 := by rw [← he]
        subst hk
        rw [dictLookup_keyMapAdd, if_pos rfl, Option.getD_some]
        exact List.mem_append_right _ (List.mem_singleton.mpr rfl)
      · left; exact ht
    · right
      exact mem_dictLookup_keyMapAdd h

theorem NormalizedKeys_spec {dict : Dictionary} {k : Str} {v : List Str}
    (h : (k, v) ∈ dict) :
    ∃ keys, dictLookup (NormalizedKeys dict) (NormalizeString k) =
      some keys ∧ k ∈ keys := by
  have hm : k ∈ (dictLookup (NormalizedKeys dict)
      (NormalizeString k)).getD [] :=
    foldl_keyMapAdd_mem dict [] (Or.inl h)
  rcases hl : dictLookup (NormalizedKeys dict) (NormalizeString k) with
      _ | keys
  · rw [hl] at hm; simp at hm
  · rw [hl] at hm; exact ⟨keys, rfl, hm⟩

theorem pick_inner_mono {keyWeight : ℚ}
    {st : List AnnotatedPhonetized × List Str}
    (L : List (Nat × Str)) (h : st.1 ≠ []) :
    (L.foldl (pickPronStep keyWeight) st).1 ≠ [] := by
  induction L generalizing st with
  | nil => exact h
  | cons a L' ih =>
    rw [List.foldl_cons]
    unfold pickPronStep
    split
    · exact ih h
    · split
      · exact ih h
      · exact ih (by simp)

theorem pick_inner_ne {keyWeight : ℚ}
    {st : List AnnotatedPhonetized × List Str}
    {L : List (Nat × Str)} {i : Nat} {p : Str}
    (hL : (i, p) ∈ L) (hp : p ≠ []) (hinv : st.1 = [] → st.2 = []) :
    (L.foldl (pickPronStep keyWeight) st).1 ≠ [] := by
  induction L generalizing st with
  | nil => simp at hL
  | cons a L' ih =>
    rw [List.foldl_cons]
    rcases List.mem_cons.mp hL with ha | ht
    · have ha2 : a.2 = p := by rw [← ha]
      have hfst : (pickPronStep keyWeight st a).1 ≠ [] := by
        unfold pickPronStep
        rw [ha2, if_neg hp]
        by_cases hseen : st.2.contains p
        · rw [if_pos hseen]
          intro hnil
          rw [hinv hnil] at hseen
          simp [List.contains] at hseen
        · rw [if_neg hseen]
          simp
      exact pick_inner_mono L' hfst
    · unfold pickPronStep
      split
      · exact ih ht hinv
      · split
        · exact ih ht hinv
        · exact ih ht (by simp)

theorem pick_inner_inv {keyWeight : ℚ}
    {st : List AnnotatedPhonetized × List Str}
    (L : List (Nat × Str)) (h : st.1 = [] → st.2 = []) :
    (L.foldl (pickPronStep keyWeight) st).1 = [] →
    (L.foldl (pickPronStep keyWeight) st).2 = [] := by
  induction L generalizing st with
  | nil => exact h
  | cons a L' ih =>
    simp only [List.foldl_cons]
    unfold pickPronStep
    split
    · exact ih h
    · split
      · exact ih h
      · exact ih (by simp)

theorem pickKeyStep_mono {dict : Dictionary} {ns : Str}
    {st : List AnnotatedPhonetized × List Str} {key : Str}
    (h : st.1 ≠ []) : (pickKeyStep dict ns st key).1 ≠ [] := by
  unfold pickKeyStep
  split
  · exact h
  · split
    · exact h
    · exact pick_inner_mono _ h

theorem pickKeyStep_inv {dict : Dictionary} {ns : Str}
    {st : List AnnotatedPhonetized × List Str} {key : Str}
    (h : st.1 = [] → st.2 = []) :
    (pickKeyStep dict ns st key).1 = [] →
    (pickKeyStep dict ns st key).2 = [] := by
  unfold pickKeyStep
  split
  · exact h
  · split
    · exact h
    · exact pick_inner_inv _ h

theorem pickKeys_mono {dict : Dictionary} {ns : Str} (keys : List Str) :
    ∀ st : List AnnotatedPhonetized × List Str, st.1 ≠ [] →
    (keys.foldl (pickKeyStep dict ns) st).1 ≠ [] := by
  induction keys with
  | nil => exact fun st h => h
  | cons a ks ih =>
    intro st h
    rw [List.foldl_cons]
    exact ih _ (pickKeyStep_mono h)

theorem pickKeys_ne {dict : Dictionary} {ns key : Str} {prons : List Str}
    {p : Str} {keys : List Str}
    (hdict : dictLookup dict key = some prons) (hp : p ∈ prons)
    (hpne : p ≠ []) (hkey : key ∈ keys) :
    ∀ st : List AnnotatedPhonetized × List Str, (st.1 = [] → st.2 = []) →
    (keys.foldl (pickKeyStep dict ns) st).1 ≠ [] := by
  induction keys with
  | nil => simp at hkey
  | cons a ks ih =>
    intro st hinv
    rw [List.foldl_cons]
    rcases List.mem_cons.mp hkey with ha | ht
    · subst ha
      have h1 : (pickKeyStep dict ns st key).1 ≠ [] := by
        unfold pickKeyStep
        simp only [hdict]
        rw [if_neg (show ¬prons = [] by intro hh; rw [hh] at hp; simp at hp)]
        obtain ⟨i, hi, hget⟩ := List.mem_iff_getElem.mp hp
        have hmemenum : (i, p) ∈ prons.enum := by
          rw [List.mem_enum_iff_getElem?]
          simp [List.getElem?_eq_getElem hi, hget]
        exact pick_inner_ne hmemenum hpne hinv
      exact pickKeys_mono ks _ h1
    · exact ih ht _ (pickKeyStep_inv hinv)

theorem foldl_dotted_nil {options : List AnnotatedPhonetized}
    (h : ∀ o ∈ options, o.S.contains 46 = false) :
    dottedBases options = [] := by
  unfold dottedBases
  induction options with
  | nil => rfl
  | cons a t ih =>
    rw [List.foldl_cons, if_neg (by rw [h a (by simp)]; simp)]
    exact ih (fun o ho => h o (List.mem_cons_of_mem a ho))

theorem dottedFilter_ne {options : List AnnotatedPhonetized}
    (h : options ≠ []) : dottedFilter options ≠ [] := by
  unfold dottedFilter
  by_cases hd : ∃ o ∈ options, o.S.contains 46 = true
  · obtain ⟨o, ho, hc⟩ := hd
    intro hnil
    have hmem : o ∈ options.filter
        (fun opt => !((dottedBases options).contains
          (opt.S.filter (· ≠ 46))) || opt.S.contains 46) :=
      List.mem_filter.mpr ⟨ho, by rw [hc]; simp⟩
    rw [hnil] at hmem
    simp at hmem
  · push_neg at hd
    have hall : ∀ o ∈ options, o.S.contains 46 = false := fun o ho =>
      Bool.eq_false_iff.mpr (hd o ho)
    rw [foldl_dotted_nil hall]
    rw [List.filter_eq_self.mpr (fun o ho => by simp [List.contains])]
    exact h

theorem insertDescC_ne (x : AnnotatedPhonetized)
    (l : List AnnotatedPhonetized) : insertDescC x l ≠ [] := by
  cases l with
  | nil => simp [insertDescC]
  | cons y ys =>
    unfold insertDescC
    split <;> simp

theorem sortDescC_ne {l : List AnnotatedPhonetized} (h : l ≠ []) :
    sortDescC l ≠ [] := by
  cases l with
  | nil => exact absurd rfl h
  | cons a t =>
    unfold sortDescC
    rw [List.foldr_cons]
    exact insertDescC_ne a _

theorem PickAll_ne {dict : Dictionary} {keys : List Str} {key : Str}
    {prons : List Str} {p : Str} {surface line : Str}
    (hdict : dictLookup dict key = some prons) (hp : p ∈ prons)
    (hpne : p ≠ []) (hkey : key ∈ keys) :
    PickAll dict keys surface line ≠ [] := by
  unfold PickAll
  have hkne : keys ≠ [] := by intro hh; rw [hh] at hkey; simp at hkey
  have hdne : dict ≠ [] := by
    intro hh; rw [hh] at hdict; simp [dictLookup, List.lookup] at hdict
  rw [if_neg (by simp [hkne, hdne])]
  have hfold := @pickKeys_ne dict (NormalizeString surface) key prons p keys
    hdict hp hpne hkey ([], []) (fun _ => rfl)
  rw [if_neg hfold]
  exact sortDescC_ne (dottedFilter_ne hfold)

theorem matchAt_full (d : Determinist) (opts : DeterministOptions)
    (t line : Str) (dict : Dictionary) (prons : List Str) (p : Str)
    (hdict : dictLookup dict t = some prons) (hp : p ∈ prons)
    (hpne : p ≠ []) (ht : t ≠ [])
    (hlast : goIsSpace (t.getD (t.length - 1) 0) = false) :
    ∃ o, matchAt d opts t dict (NormalizedKeys dict) NormalizeString line
      0 t.length = some o ∧ o ≠ [] := by
  have hlen : 0 < t.length := List.length_pos.mpr ht
  have hciw : candidateIsWholeExpression d t 0 t.length = true := by
    unfold candidateIsWholeExpression
    rw [if_neg (by omega), if_neg (by omega), if_neg (by omega)]
    simp
  have hsub : substr t 0 t.length = t := by simp [substr]
  obtain ⟨keys, hkeys, htk⟩ := NormalizedKeys_spec (lookup_some_mem hdict)
  have hkne : keys ≠ [] := by intro hh; rw [hh] at htk; simp at htk
  refine ⟨PickAll dict keys t line, ?_, PickAll_ne hdict hp hpne htk⟩
  unfold matchAt
  rw [show (0 : Nat) + t.length - 1 = t.length - 1 by omega]
  rw [if_neg (by rw [hlast]; exact Bool.false_ne_true)]
  rw [if_neg (by rw [hciw]; simp)]
  simp only [hsub, hkeys]
  rw [if_neg hkne]
  rw [if_neg (PickAll_ne hdict hp hpne htk)]

theorem findMatch_first {d : Determinist} {opts : DeterministOptions}
    {text line : Str} {dict : Dictionary} {km : KeyMap}
    {normF : Str → Str} {i m : Nat} {o : List AnnotatedPhonetized}
    (h : matchAt d opts text dict km normF line i (m + 1) = some o) :
    findMatch d opts text dict km normF line i (m + 1) = some (m + 1, o) := by
  unfold findMatch
  rw [h]

theorem scanSegment_whole (d : Determinist) (opts : DeterministOptions)
    (t line : Str) (dict : Dictionary) (maxKeyLen : Nat) (pc : ℚ)
    (prons : List Str) (p : Str)
    (hdict : dictLookup dict t = some prons) (hp : p ∈ prons)
    (hpne : p ≠ []) (ht : t ≠ [])
    (hhead : goIsSpace (t.getD 0 0) = false)
    (hlast : goIsSpace (t.getD (t.length - 1) 0) = false)
    (hmk : t.length ≤ maxKeyLen) :
    (∃ f ∈ (scanSegment d t 0 dict (NormalizedKeys dict) maxKeyLen
        NormalizeString pc line opts).1, f.Pos = 0 ∧ f.Len = t.length) ∧
    (scanSegment d t 0 dict (NormalizedKeys dict) maxKeyLen
        NormalizeString pc line opts).2 = [] := by
  obtain ⟨o, ho, hone⟩ :=
    matchAt_full d opts t line dict prons p hdict hp hpne ht hlast
  have hlen : 0 < t.length := List.length_pos.mpr ht
  obtain ⟨m, hm⟩ : ∃ m, t.length = m + 1 := ⟨t.length - 1, by omega⟩
  have hfm : findMatch d opts t dict (NormalizedKeys dict) NormalizeString
      line 0 (min maxKeyLen (t.length - 0)) = some (t.length, o) := by
    rw [Nat.sub_zero, Nat.min_eq_right hmk, hm]
    exact findMatch_first (by rw [← hm]; exact ho)
  have hkmne : NormalizedKeys dict ≠ [] := by
    obtain ⟨keys, hkeys, _⟩ := NormalizedKeys_spec (lookup_some_mem hdict)
    intro hh; rw [hh] at hkeys; simp [dictLookup, List.lookup] at hkeys
  have hdne : dict ≠ [] := by
    intro hh; rw [hh] at hdict; simp [dictLookup, List.lookup] at hdict
  have hrest : scanLoop d opts t 0 dict (NormalizedKeys dict) maxKeyLen
      NormalizeString pc line t.length (0 + t.length) none = ([], []) := by
    rw [hm]
    unfold scanLoop scanLoopStep
    rw [if_neg (by omega)]
    rfl
  unfold scanSegment
  rw [if_neg (by omega)]
  rw [if_neg (by push_neg; exact ⟨by omega, hkmne, hdne⟩)]
  unfold scanLoop scanLoopStep
  rw [if_pos (show (0:Nat) < t.length from hlen)]
  rw [if_neg (by rw [hhead]; exact Bool.false_ne_true)]
  simp only [hfm, hrest]
  obtain ⟨o0, os, rfl⟩ := List.exists_cons_of_ne_nil hone
  constructor
  · refine ⟨⟨o0.S, 0, t.length, pc * o0.C, 0⟩, ?_, rfl, rfl⟩
    simp only [List.append_nil]
    apply List.mem_map.mpr
    refine ⟨(0, o0), ?_, rfl⟩
    rw [List.mem_enum_iff_getElem?]
    simp
  · simp [flushAt]


theorem applyFold_fst_mono (d : Determinist) (opts : DeterministOptions)
    (T : Str) (raws : List RawText) :
    ∀ (acc : List Fragment × List RawText) (f : Fragment), f ∈ acc.1 →
    f ∈ (raws.foldl (applyStep d opts T) acc).1 := by
  induction raws with
  | nil => exact fun acc f h => h
  | cons raw rest ih =>
    intro acc f h
    rw [List.foldl_cons]
    exact ih _ f (List.mem_append_left _ h)

theorem scan_whole (dict : Dictionary) (opts : DeterministOptions)
    (t line : Str) (prons : List Str) (p : Str)
    (hdict : dictLookup dict t = some prons) (hp : p ∈ prons)
    (hpne : p ≠ []) (ht : t ≠ [])
    (hhead : goIsSpace (t.getD 0 0) = false)
    (hlast : goIsSpace (t.getD (t.length - 1) 0) = false) :
    ∃ f ∈ (scan (NewDeterministWithOptions dict opts) t opts line).1,
      f.Pos = 0 ∧ f.Len = t.length := by
  have e1 : (NewDeterministWithOptions dict opts).langDict = dict := rfl
  have e2 : (NewDeterministWithOptions dict opts).langDictNormKeyMap =
      NormalizedKeys dict := rfl
  have e3 : (NewDeterministWithOptions dict opts).langMaxKeyLen =
      MaxKeyLen dict := rfl
  obtain ⟨⟨f, hf, hf0, hfl⟩, hraws⟩ :=
    scanSegment_whole (NewDeterministWithOptions dict opts) opts t line dict
      (MaxKeyLen dict) 1 prons p hdict hp hpne ht hhead hlast
      (le_MaxKeyLen (lookup_some_mem hdict))
  unfold scan
  rw [e1, e2, e3]
  unfold scanFinish
  rw [if_pos (Or.inr (Or.inl hraws))]
  exact ⟨f, mem_sortFragments.mpr hf, hf0, hfl⟩

theorem cIWE_spec {d : Determinist} {rs : Str} {i l : Nat}
    (h : candidateIsWholeExpression d rs i l = true) :
    0 < l ∧ i + l ≤ rs.length ∧
    (i = 0 ∨ isDelimiterRune d (rs.getD (i - 1) 0) = true) ∧
    (i + l = rs.length ∨ isDelimiterRune d (rs.getD (i + l) 0) = true) := by
  unfold candidateIsWholeExpression at h
  split_ifs at h with h1 h2 h3
  rw [Bool.and_eq_true, Bool.or_eq_true, Bool.or_eq_true,
    beq_iff_eq, beq_iff_eq] at h
  exact ⟨by omega, by omega, h.1, h.2⟩

theorem matchAt_some_boundary {d : Determinist} {opts : DeterministOptions}
    {text line : Str} {dict : Dictionary} {km : KeyMap} {normF : Str → Str}
    {i l : Nat} {o : List AnnotatedPhonetized}
    (hap : opts.AllowPartialMatch = false)
    (h : matchAt d opts text dict km normF line i l = some o) :
    candidateIsWholeExpression d text i l = true := by
  by_cases hc : candidateIsWholeExpression d text i l = true
  · exact hc
  · exfalso
    have hc' : candidateIsWholeExpression d text i l = false :=
      Bool.eq_false_iff.mpr hc
    unfold matchAt at h
    rw [hap, hc'] at h
    simp at h

theorem scanLoop_frag_boundary (d : Determinist) (opts : DeterministOptions)
    (text : Str) (offset : Nat) (dictionary : Dictionary)
    (normalized : KeyMap) (maxKeyLen : Nat) (normF : Str → Str) (pc : ℚ)
    (line : Str) (hap : opts.AllowPartialMatch = false) :
    ∀ (fuel i : Nat) (cs : Option Nat),
    ∀ f ∈ (scanLoop d opts text offset dictionary normalized maxKeyLen
      normF pc line fuel i cs).1,
    ∃ j l, f.Pos = offset + j ∧ f.Len = l ∧ 0 < l ∧
      j + l ≤ text.length ∧
      (j = 0 ∨ isDelimiterRune d (text.getD (j - 1) 0) = true) ∧
      (j + l = text.length ∨
        isDelimiterRune d (text.getD (j + l) 0) = true) := by
  intro fuel
  induction fuel with
  | zero => intro i cs f hf; simp [scanLoop] at hf
  | succ n ih =>
    intro i cs f hf
    unfold scanLoop scanLoopStep at hf
    by_cases hlt : i < text.length
    · rw [if_pos hlt] at hf
      by_cases hsp : goIsSpace (text.getD i 0) = true
      · rw [if_pos hsp] at hf
        exact ih _ _ f hf
      · rw [if_neg hsp] at hf
        rcases hfm : findMatch d opts text dictionary normalized normF line
            i (min maxKeyLen (text.length - i)) with _ | lo
        · simp only [hfm] at hf
          exact ih _ _ f hf
        · match lo with
          | (l, options) =>
            simp only [hfm] at hf
            rcases List.mem_append.mp hf with hf1 | hf2
            · obtain ⟨vo, hvo, rfl⟩ := List.mem_map.mp hf1
              obtain ⟨hma, hlpos, hlle, hmax⟩ := findMatch_spec hfm
              obtain ⟨hl0, hile, hleft, hright⟩ :=
                cIWE_spec (matchAt_some_boundary hap hma)
              exact ⟨i, l, rfl, rfl, hl0, hile, hleft, hright⟩
            · exact ih _ _ f hf2
    · rw [if_neg hlt] at hf
      simp at hf

theorem substr_length {t : Str} {p l : Nat} (h : p + l ≤ t.length) :
    (substr t p l).length = l := by
  unfold substr
  rw [List.length_take, List.length_drop]
  omega

theorem substr_full (t : Str) : substr t 0 t.length = t := by
  simp [substr]

theorem substr_substr (t : Str) (p n s l : Nat) (h1 : s + l ≤ n) :
    substr (substr t p n) s l = substr t (p + s) l := by
  unfold substr
  rw [List.drop_take, List.take_take, List.drop_drop]
  congr 1
  omega

theorem substr_append (t : Str) (p l1 l2 : Nat) :
    substr t p (l1 + l2) = substr t p l1 ++ substr t (p + l1) l2 := by
  unfold substr
  rw [List.take_add, List.drop_drop]

theorem RawOK_nest {t : Str} {a b : RawText} {s : Nat}
    (ha : RawOK t a)
    (hpos : b.Pos = a.Pos + s)
    (htext : b.Text = substr a.Text s b.Len)
    (hle : s + b.Len ≤ a.Text.length) :
    RawOK t b := by
  obtain ⟨hat, hab⟩ := ha
  have hlen : a.Text.length = a.Len := by rw [hat]; exact substr_length hab
  rw [hlen] at hle
  constructor
  · rw [htext, hat, substr_substr t a.Pos a.Len s b.Len hle, ← hpos]
  · rw [hpos]
    omega

theorem flushRaw_raw {text : Str} {offset : Nat} {cs : Option Nat}
    {rt : RawText} (h : rt ∈ flushRaw text offset cs) :
    ∃ s, rt.Pos = offset + s ∧ rt.Text = substr text s rt.Len ∧
      s + rt.Len ≤ text.length := by
  unfold flushRaw at h
  split at h
  · split at h
    · rename_i s hs
      simp only [List.mem_singleton] at h
      subst h
      refine ⟨s, rfl, rfl, ?_⟩
      show s + (text.length - s) ≤ text.length
      omega
    · simp at h
  · simp at h

theorem flushAt_raw {text : Str} {offset i : Nat} {cs : Option Nat}
    {rt : RawText} (hi : i ≤ text.length) (h : rt ∈ flushAt text offset i cs) :
    ∃ s, rt.Pos = offset + s ∧ rt.Text = substr text s rt.Len ∧
      s + rt.Len ≤ text.length := by
  unfold flushAt at h
  split at h
  · split at h
    · rename_i s hs
      simp only [List.mem_singleton] at h
      subst h
      refine ⟨s, rfl, rfl, ?_⟩
      show s + (i - s) ≤ text.length
      omega
    · simp at h
  · simp at h

theorem scanLoop_raw (d : Determinist) (opts : DeterministOptions)
    (text : Str) (offset : Nat) (dictionary : Dictionary)
    (normalized : KeyMap) (maxKeyLen : Nat) (normF : Str → Str) (pc : ℚ)
    (line : Str) :
    ∀ (fuel i : Nat) (cs : Option Nat),
    ∀ rt ∈ (scanLoop d opts text offset dictionary normalized maxKeyLen
      normF pc line fuel i cs).2,
    ∃ s, rt.Pos = offset + s ∧ rt.Text = substr text s rt.Len ∧
      s + rt.Len ≤ text.length := by
  intro fuel
  induction fuel with
  | zero =>
    intro i cs rt hrt
    unfold scanLoop at hrt
    exact flushRaw_raw hrt
  | succ n ih =>
    intro i cs rt hrt
    unfold scanLoop scanLoopStep at hrt
    by_cases hlt : i < text.length
    · rw [if_pos hlt] at hrt
      by_cases hsp : goIsSpace (text.getD i 0) = true
      · rw [if_pos hsp] at hrt
        exact ih _ _ rt hrt
      · rw [if_neg hsp] at hrt
        rcases hfm : findMatch d opts text dictionary normalized normF line
            i (min maxKeyLen (text.length - i)) with _ | lo
        · simp only [hfm] at hrt
          exact ih _ _ rt hrt
        · match lo with
          | (l, options) =>
            simp only [hfm] at hrt
            rcases List.mem_append.mp hrt with h1 | h2
            · exact flushAt_raw (Nat.le_of_lt hlt) h1
            · exact ih _ _ rt h2
    · rw [if_neg hlt] at hrt
      exact flushRaw_raw hrt

theorem scanSegment_raw (d : Determinist) (text : Str) (offset : Nat)
    (dictionary : Dictionary) (normalized : KeyMap) (maxKeyLen : Nat)
    (normF : Str → Str) (pc : ℚ) (line : Str) (opts : DeterministOptions) :
    ∀ rt ∈ (scanSegment d text offset dictionary normalized maxKeyLen
      normF pc line opts).2,
    ∃ s, rt.Pos = offset + s ∧ rt.Text = substr text s rt.Len ∧
      s + rt.Len ≤ text.length := by
  intro rt hrt
  unfold scanSegment at hrt
  by_cases h0 : text.length = 0
  · rw [if_pos h0] at hrt
    simp at hrt
  · rw [if_neg h0] at hrt
    by_cases h1 : maxKeyLen = 0 ∨ normalized = [] ∨ dictionary = []
    · rw [if_pos h1] at hrt
      simp only [List.mem_singleton] at hrt
      subst hrt
      exact ⟨0, (Nat.add_zero offset).symm, (substr_full text).symm,
        Nat.le_of_eq (Nat.zero_add _)⟩
    · rw [if_neg h1] at hrt
      exact scanLoop_raw d opts text offset dictionary normalized maxKeyLen
        normF pc line (text.length + 1) 0 none rt hrt

theorem scanSegment_raw_ok {t : Str} {a : RawText} (ha : RawOK t a)
    (d : Determinist) (dictionary : Dictionary) (normalized : KeyMap)
    (maxKeyLen : Nat) (normF : Str → Str) (pc : ℚ) (line : Str)
    (opts : DeterministOptions) :
    ∀ rt ∈ (scanSegment d a.Text a.Pos dictionary normalized maxKeyLen
      normF pc line opts).2, RawOK t rt := by
  intro rt hrt
  obtain ⟨s, h1, h2, h3⟩ := scanSegment_raw d a.Text a.Pos dictionary
    normalized maxKeyLen normF pc line opts rt hrt
  exact RawOK_nest ha h1 h2 h3

theorem mergeRawTextsAux_raw (t : Str) :
    ∀ (rest : List RawText) (current : RawText),
    RawOK t current → (∀ r ∈ rest, RawOK t r) →
    ∀ rt ∈ mergeRawTextsAux current rest, RawOK t rt := by
  intro rest
  induction rest with
  | nil =>
    intro current hc _ rt hrt
    simp only [mergeRawTextsAux, List.mem_singleton] at hrt
    subst hrt
    exact hc
  | cons next rest ih =>
    intro current hc hrest rt hrt
    unfold mergeRawTextsAux at hrt
    by_cases hadj : current.Pos + current.Len = next.Pos
    · rw [if_pos hadj] at hrt
      refine ih _ ?_ (fun r hr => hrest r (List.mem_cons_of_mem next hr)) rt hrt
      obtain ⟨hct, _⟩ := hc
      obtain ⟨hnt, hnb⟩ := hrest next (List.mem_cons_self next rest)
      constructor
      · show current.Text ++ next.Text =
          substr t current.Pos (current.Len + next.Len)
        rw [hct, hnt, substr_append, hadj]
      · show current.Pos + (current.Len + next.Len) ≤ t.length
        omega
    · rw [if_neg hadj] at hrt
      rcases List.mem_cons.mp hrt with h1 | h2
      · subst h1
        exact hc
      · exact ih next (hrest next (List.mem_cons_self next rest))
          (fun r hr => hrest r (List.mem_cons_of_mem next hr)) rt h2

theorem mergeRawTexts_raw (t : Str) (raws : List RawText)
    (h : ∀ r ∈ raws, RawOK t r) :
    ∀ rt ∈ mergeRawTexts raws, RawOK t rt := by
  intro rt hrt
  unfold mergeRawTexts at hrt
  by_cases hl : raws.length < 2
  · rw [if_pos hl] at hrt
    exact h rt hrt
  · rw [if_neg hl] at hrt
    rcases hs : List.insertionSort rawLE raws with _ | ⟨hd, tl⟩
    · rw [hs] at hrt
      simp at hrt
    · rw [hs] at hrt
      have hmem : ∀ r ∈ hd :: tl, RawOK t r := by
        intro r hr
        rw [← hs] at hr
        exact h r ((List.mem_insertionSort rawLE).mp hr)
      exact mergeRawTextsAux_raw t tl hd (hmem hd (List.mem_cons_self hd tl))
        (fun r hr => hmem r (List.mem_cons_of_mem hd hr)) rt hrt

theorem scanTolStep_fold_raw (d : Determinist) (line : Str)
    (opts : DeterministOptions) (t : Str) :
    ∀ (raws : List RawText), (∀ r ∈ raws, RawOK t r) →
    ∀ (acc : List Fragment × List RawText),
    (∀ r ∈ acc.2, RawOK t r) →
    ∀ rt ∈ (raws.foldl (scanTolStep d line opts) acc).2, RawOK t rt := by
  intro raws
  induction raws with
  | nil =>
    intro _ acc hacc rt hrt
    exact hacc rt hrt
  | cons a as ih =>
    intro h acc hacc rt hrt
    simp only [List.foldl_cons] at hrt
    refine ih (fun r hr => h r (List.mem_cons_of_mem a hr))
      (scanTolStep d line opts acc a) ?_ rt hrt
    intro r hr
    unfold scanTolStep at hr
    by_cases hc : (scanSegment d a.Text a.Pos d.langDict d.langTolerantKeyMap
        d.langMaxKeyLen tolerantNormalize (9/10) line opts).1 = []
    · rw [if_pos hc] at hr
      rcases List.mem_append.mp hr with h1 | h2
      · exact hacc r h1
      · simp only [List.mem_singleton] at h2
        rw [h2]
        exact h a (List.mem_cons_self a as)
    · rw [if_neg hc] at hr
      rcases List.mem_append.mp hr with h1 | h2
      · exact hacc r h1
      · exact scanSegment_raw_ok (h a (List.mem_cons_self a as)) d d.langDict
          d.langTolerantKeyMap d.langMaxKeyLen tolerantNormalize (9/10) line
          opts r h2

theorem scanFinish_raw (d : Determinist) (line : Str)
    (opts : DeterministOptions) (t : Str)
    (strict : List Fragment × List RawText)
    (h : ∀ r ∈ strict.2, RawOK t r) :
    ∀ rt ∈ (scanFinish d line opts strict).2, RawOK t rt := by
  intro rt hrt
  unfold scanFinish at hrt
  split at hrt
  · exact mergeRawTexts_raw t strict.2 h rt hrt
  · refine mergeRawTexts_raw t _ ?_ rt hrt
    exact scanTolStep_fold_raw d line opts t strict.2 h (strict.1, [])
      (fun r hr => absurd hr (List.not_mem_nil r))

theorem scan_raw_ok (d : Determinist) (t : Str) (opts : DeterministOptions)
    (line : Str) : ∀ rt ∈ (scan d t opts line).2, RawOK t rt := by
  intro rt hrt
  unfold scan at hrt
  refine scanFinish_raw d line opts t _ ?_ rt hrt
  intro r hr
  obtain ⟨s, h1, h2, h3⟩ := scanSegment_raw d t 0 d.langDict
    d.langDictNormKeyMap d.langMaxKeyLen NormalizeString 1 line opts r hr
  refine ⟨?_, by omega⟩
  rw [h2, h1, Nat.zero_add]

theorem applyStep_fold_raw (d : Determinist) (opts : DeterministOptions)
    (T : Str) :
    ∀ (raws : List RawText), (∀ r ∈ raws, RawOK T r) →
    ∀ (acc : List Fragment × List RawText), (∀ r ∈ acc.2, RawOK T r) →
    ∀ rt ∈ (raws.foldl (applyStep d opts T) acc).2, RawOK T rt := by
  intro raws
  induction raws with
  | nil =>
    intro _ acc hacc rt hrt
    exact hacc rt hrt
  | cons a as ih =>
    intro h acc hacc rt hrt
    simp only [List.foldl_cons] at hrt
    refine ih (fun r hr => h r (List.mem_cons_of_mem a hr))
      (applyStep d opts T acc a) ?_ rt hrt
    intro r hr
    unfold applyStep at hr
    rcases List.mem_append.mp hr with h1 | h2
    · exact hacc r h1
    · obtain ⟨r0, hr0, rfl⟩ := List.mem_map.mp h2
      obtain ⟨ht0, hb0⟩ := scan_raw_ok d a.Text opts T r0 hr0
      exact RawOK_nest (h a (List.mem_cons_self a as))
        (Nat.add_comm r0.Pos a.Pos) ht0 hb0

theorem applyWithOptions_text (d : Determinist) (input : Result)
    (opts : DeterministOptions) :
    (applyWithOptions d input opts).Text = input.Text := by
  unfold applyWithOptions
  split <;> rfl

theorem applyWithOptions_raw (d : Determinist) (input : Result)
    (opts : DeterministOptions)
    (h : ∀ rt ∈ input.RawTexts, RawOK input.Text rt) :
    ∀ rt ∈ (applyWithOptions d input opts).RawTexts,
      RawOK (applyWithOptions d input opts).Text rt := by
  intro rt hrt
  rw [applyWithOptions_text]
  unfold applyWithOptions at hrt
  split at hrt
  · exact h rt hrt
  · refine mergeRawTexts_raw input.Text _ ?_ rt hrt
    exact applyStep_fold_raw d opts input.Text input.RawTexts h
      (input.Fragments, []) (fun r hr => absurd hr (List.not_mem_nil r))

theorem ScanWithOptions_raw (d : Determinist) (t : Str)
    (opts : DeterministOptions) :
    ∀ rt ∈ (ScanWithOptions d t opts).RawTexts, RawOK t rt := by
  intro rt hrt
  have hw : ∀ r ∈ (Result.mk t []
      (if 0 < t.length then [⟨t, 0, t.length⟩] else [])).RawTexts,
      RawOK (Result.mk t []
        (if 0 < t.length then [⟨t, 0, t.length⟩] else [])).Text r := by
    intro r hr
    simp only at hr
    split at hr
    · simp only [List.mem_singleton] at hr
      subst hr
      exact ⟨(substr_full t).symm, Nat.le_of_eq (Nat.zero_add _)⟩
    · simp at hr
  have h1 := applyWithOptions_raw d
    (Result.mk t [] (if 0 < t.length then [⟨t, 0, t.length⟩] else []))
    opts hw rt hrt
  rwa [applyWithOptions_text] at h1

/-! ## Claim theorems -/

/-- C1 (part): the S1 scenario.  Scanning `"Le GrosBenoit"` with
`{le→lə, benoit→bənwa}` under `AllowPartialMatch = true` yields exactly
the fragments `(pos 0, len 2, "lə")` and `(pos 7, len 6, "bənwa")` and
the single raw span `(pos 2, len 5, " Gros")`; and (general part) the
inner candidate search of the scanner returns the largest matching
length unconditionally: any longer candidate length up to the bound is
rejected. -/
theorem claim_C1 :
    (Scan detS1 textS1 =
      ⟨textS1,
       [⟨[108, 0x259], 0, 2, 1, 0⟩, ⟨[98, 0x259, 110, 119, 97], 7, 6, 1, 0⟩],
       [⟨[32, 71, 114, 111, 115], 2, 5⟩]⟩) ∧
    (∀ d opts text dictionary normalized normF line i l0 l o,
      findMatch d opts text dictionary normalized normF line i l0 =
        some (l, o) →
      matchAt d opts text dictionary normalized normF line i l = some o ∧
      0 < l ∧ l ≤ l0 ∧
      ∀ l', l < l' → l' ≤ l0 →
        matchAt d opts text dictionary normalized normF line i l' = none) :=
  ⟨by with_unfolding_all rfl,
   fun _ _ _ _ _ _ _ _ _ _ _ h => findMatch_spec h⟩

/-- C1 witness: at position 0 of the S1 text the search over candidate
lengths 6..1 accepts length 2 (`"Le"`), and every longer candidate
length 3..6 is rejected. -/
theorem claim_C1_witness :
    matchAt detS1 detS1.options textS1 detS1.langDict
      detS1.langDictNormKeyMap NormalizeString textS1 0 2 =
      some [⟨[108, 0x259], 1⟩] ∧
    ∀ l', 2 < l' → l' ≤ 6 →
      matchAt detS1 detS1.options textS1 detS1.langDict
        detS1.langDictNormKeyMap NormalizeString textS1 0 l' = none := by
  have h := (claim_C1.2 detS1 detS1.options textS1 detS1.langDict
    detS1.langDictNormKeyMap NormalizeString textS1 0 6 2
    [⟨[108, 0x259], 1⟩] (by with_unfolding_all rfl))
  exact ⟨h.1, h.2.2.2⟩

/-- C4: merge-mode semantics on `{a→[x]}` then `{a→[y]}`:
Append yields `{a→[x,y]}`, Prepend `{a→[y,x]}`, NoOverride `{a→[x]}`,
Replace `{a→[y]}`. -/
theorem claim_C4 :
    repAX.Entries = [([97], [[120]])] ∧
    (loadIntoModel repAX .Append [srcAY]).1.Entries =
      [([97], [[120], [121]])] ∧
    (loadIntoModel repAX .Prepend [srcAY]).1.Entries =
      [([97], [[121], [120]])] ∧
    (loadIntoModel repAX .NoOverride [srcAY]).1.Entries =
      [([97], [[120]])] ∧
    (loadIntoModel repAX .Replace [srcAY]).1.Entries =
      [([97], [[121]])] := by
  decide

/-- C7 counterexample: with `{garçon→garsɔ̃}` and
`DiacriticInsensitive = true`, scanning `"garcon"` yields the single
fragment `(pos 0, len 6, "garsɔ̃")` with confidence `0.81`, not
approximately `0.9`: the tolerant pass confidence `0.9` is multiplied
by the picker's key weight `0.9`. -/
theorem counterexample_C7 :
    Scan detS3 [103, 97, 114, 99, 111, 110] =
      ⟨[103, 97, 114, 99, 111, 110],
       [⟨[103, 97, 114, 115, 0x254, 0x303], 0, 6, 81/100, 0⟩], []⟩ ∧
    (81 / 100 : ℚ) ≠ 9 / 10 ∧ (81 / 100 : ℚ) < 85 / 100 :=
  ⟨by with_unfolding_all rfl, by norm_num, by norm_num⟩

/-- C7 (amended): the S3 tolerant-pass scenario produces exactly one
fragment `(pos 0, len 6, "garsɔ̃")` whose confidence is exactly
`0.81 = 0.9 * 0.9`, the product of the tolerant pass confidence and the
picker's key weight for a key differing from the surface in
diacritics. -/
theorem claim_C7 :
    Scan detS3 [103, 97, 114, 99, 111, 110] =
      ⟨[103, 97, 114, 99, 111, 110],
       [⟨[103, 97, 114, 115, 0x254, 0x303], 0, 6, 81/100, 0⟩], []⟩ ∧
    (81 / 100 : ℚ) = (9 / 10) * (9 / 10) :=
  ⟨by with_unfolding_all rfl, by norm_num⟩

/-- C8 counterexample: in `"a#b\tphon"` the `#` is directly attached to
the preceding non-whitespace `a`, yet the stripper cuts from it
(leaving `"a"`), and the line yields no dictionary entry at all —
the characters before `#` are not kept as claimed. -/
theorem counterexample_C8 :
    stripInlineCommentAndTrim lineHash = [97] ∧
    parseTextIpaLine lineHash = none := by
  decide

/-- C9 counterexample: a `LoadInto`-style call over a successful source
followed by a failing gob source returns an error, but the accumulator
keeps the first source's entry — it is not rolled back to its pre-call
(empty) state. -/
theorem counterexample_C9 :
    loadIntoModel NewRepresentation .Append [srcGood, srcBadGob] =
      (⟨[([97], [[120]])], [[97, 0, 120]], [[97]]⟩, false) ∧
    NewRepresentation.Entries = [] := by
  decide

/-- C2 counterexample: the dictionary contains the whole (non-empty)
text and the input has no fragments, but because the input's stored
`RawTexts` list is empty, `Apply` scans nothing and returns the input
unchanged — no fragment covering the text is produced. -/
theorem counterexample_C2 :
    dictLookup detLe.langDict inputNoRaws.Text = some [[108, 0x259]] ∧
    inputNoRaws.Text ≠ [] ∧ inputNoRaws.Fragments = [] ∧
    Apply detLe inputNoRaws = inputNoRaws := by
  refine ⟨by decide, by decide, rfl, by with_unfolding_all rfl⟩

/-- C2 (amended): `Apply` scans the raw spans stored in the input
Result (not a derived complement): pre-existing fragments are always
preserved verbatim in the output, and when the input consists of the
whole text as a single raw span with no fragments — as `Scan`
constructs it — a dictionary containing the whole text (with a
non-empty phonetization, the text non-empty and not starting or ending
with whitespace) yields a fragment covering the entire text. -/
theorem claim_C2 :
    (∀ (d : Determinist) (input : Result) (opts : DeterministOptions)
      (f : Fragment), f ∈ input.Fragments →
      f ∈ (applyWithOptions d input opts).Fragments) ∧
    (∀ (dict : Dictionary) (opts : DeterministOptions) (t : Str)
      (prons : List Str) (p : Str),
      dictLookup dict t = some prons → p ∈ prons → p ≠ [] →
      t ≠ [] → goIsSpace (t.getD 0 0) = false →
      goIsSpace (t.getD (t.length - 1) 0) = false →
      ∃ f ∈ (Scan (NewDeterministWithOptions dict opts) t).Fragments,
        f.Pos = 0 ∧ f.Len = t.length) := by
  constructor
  · intro d input opts f hf
    unfold applyWithOptions
    split
    · exact hf
    · exact mem_sortFragments.mpr
        (applyFold_fst_mono d opts input.Text input.RawTexts
          (input.Fragments, []) f hf)
  · intro dict opts t prons p hdict hp hpne ht hhead hlast
    have hlen : 0 < t.length := List.length_pos.mpr ht
    obtain ⟨f, hf, hf0, hfl⟩ :=
      scan_whole dict opts t t prons p hdict hp hpne ht hhead hlast
    unfold Scan ScanWithOptions
    rw [if_pos hlen]
    unfold applyWithOptions
    rw [if_neg (by simp [ht])]
    refine ⟨{ f with Pos := f.Pos + 0 }, ?_, by simp [hf0], hfl⟩
    apply mem_sortFragments.mpr
    simp only [List.foldl_cons, List.foldl_nil]
    unfold applyStep
    apply List.mem_append_right
    exact List.mem_map.mpr ⟨f, hf, rfl⟩

/-- C2 witness: preservation on a concrete input, and the whole-text
scenario on `{le → lə}` scanning `"le"`. -/
theorem claim_C2_witness :
    (⟨[120], 1, 1, 1, 0⟩ : Fragment) ∈
      (applyWithOptions detLe
        ⟨[97, 98], [⟨[120], 1, 1, 1, 0⟩], []⟩ detLe.options).Fragments ∧
    ∃ f ∈ (Scan (NewDeterministWithOptions [([108, 101], [[108, 0x259]])]
        DefaultDeterministOptions) [108, 101]).Fragments,
      f.Pos = 0 ∧ f.Len = ([108, 101] : Str).length :=
  ⟨claim_C2.1 detLe ⟨[97, 98], [⟨[120], 1, 1, 1, 0⟩], []⟩ detLe.options
      ⟨[120], 1, 1, 1, 0⟩ (List.mem_singleton.mpr rfl),
   claim_C2.2 [([108, 101], [[108, 0x259]])] DefaultDeterministOptions
      [108, 101] [[108, 0x259]] [108, 0x259] (by decide)
      (List.mem_singleton.mpr rfl) (by decide) (by decide) (by decide)
      (by decide)⟩

/-- C3 counterexample: with `AllowPartialMatch = false` and
`DiacriticInsensitive = true` over `{a→A, .b→B}`, scanning `"a.b"`
produces the fragment `(pos 1, len 2)` for `".b"` through the tolerant
pass, although position 1 is neither the start of the text nor preceded
by a delimiter (the preceding rune `a` is not a delimiter). -/
theorem counterexample_C3 :
    detBnd.options.AllowPartialMatch = false ∧
    Scan detBnd [97, 46, 98] =
      ⟨[97, 46, 98],
       [⟨[65], 0, 1, 1, 0⟩, ⟨[66], 1, 2, 9/10, 0⟩], []⟩ ∧
    isDelimiterRune detBnd 97 = false ∧
    ([97, 46, 98] : Str).getD 0 0 = 97 :=
  ⟨rfl, by with_unfolding_all rfl, by decide, rfl⟩

/-- C3 (amended): the strict boundary rule holds relative to the
scanned segment: with `AllowPartialMatch = false`, every fragment
produced by `scanSegment` spans runes `[j, j+l)` of the segment where
`j` is the segment start or preceded by a delimiter rune, and `j+l` is
the segment end or followed by a delimiter rune (whitespace always
delimits; punctuation by default, or membership in the custom set).
Text-relative boundaries can be violated by the tolerant pass, which
rescans interior raw spans as fresh segments. -/
theorem claim_C3 (d : Determinist) (text : Str) (offset : Nat)
    (dictionary : Dictionary) (normalized : KeyMap) (maxKeyLen : Nat)
    (normF : Str → Str) (pc : ℚ) (line : Str) (opts : DeterministOptions)
    (hap : opts.AllowPartialMatch = false) :
    ∀ f ∈ (scanSegment d text offset dictionary normalized maxKeyLen
      normF pc line opts).1,
    ∃ j l, f.Pos = offset + j ∧ f.Len = l ∧ 0 < l ∧
      j + l ≤ text.length ∧
      (j = 0 ∨ isDelimiterRune d (text.getD (j - 1) 0) = true) ∧
      (j + l = text.length ∨
        isDelimiterRune d (text.getD (j + l) 0) = true) := by
  intro f hf
  unfold scanSegment at hf
  split_ifs at hf with h1 h2
  · simp at hf
  · simp at hf
  · exact scanLoop_frag_boundary d opts text offset dictionary normalized
      maxKeyLen normF pc line hap _ 0 none f hf

/-- C3 witness: scanning the segment `"le"` with `{le→lə}` under
strict boundaries yields the whole-segment fragment, which satisfies
the boundary conditions. -/
theorem claim_C3_witness :
    ∃ j l, (⟨[108, 0x259], 0, 2, 1, 0⟩ : Fragment).Pos = 0 + j ∧
      (⟨[108, 0x259], 0, 2, 1, 0⟩ : Fragment).Len = l ∧ 0 < l ∧
      j + l ≤ ([108, 101] : Str).length ∧
      (j = 0 ∨ isDelimiterRune detLe (([108, 101] : Str).getD (j - 1) 0)
        = true) ∧
      (j + l = ([108, 101] : Str).length ∨
        isDelimiterRune detLe (([108, 101] : Str).getD (j + l) 0) = true) := by
  have hseg : scanSegment detLe [108, 101] 0 [([108, 101], [[108, 0x259]])]
      (NormalizedKeys [([108, 101], [[108, 0x259]])])
      (MaxKeyLen [([108, 101], [[108, 0x259]])]) NormalizeString 1 []
      ⟨false, false⟩ = ([⟨[108, 0x259], 0, 2, 1, 0⟩], []) := by
    with_unfolding_all rfl
  exact claim_C3 detLe [108, 101] 0 [([108, 101], [[108, 0x259]])]
    (NormalizedKeys [([108, 101], [[108, 0x259]])])
    (MaxKeyLen [([108, 101], [[108, 0x259]])]) NormalizeString 1 []
    ⟨false, false⟩ rfl ⟨[108, 0x259], 0, 2, 1, 0⟩
    (by rw [hseg]; exact List.mem_singleton.mpr rfl)

/-- C5 counterexample: on an input with non-empty text but no raw
spans, `Apply` returns the input verbatim, including its unsorted
fragment list (positions 1 then 0). -/
theorem counterexample_C5 :
    Apply detLe inputUnsorted = inputUnsorted ∧
    ¬ List.Sorted fragLE inputUnsorted.Fragments := by
  constructor
  · with_unfolding_all rfl
  · intro h
    have := List.rel_of_sorted_cons h _ (List.mem_singleton.mpr rfl)
    rcases this with h1 | ⟨h1, _⟩ <;> simp_all

/-- C5 (amended): after any `Apply` whose input has non-empty text and
at least one raw span, the fragments of the result are sorted by
(pos asc, len desc, confidence desc, variant asc); when the text is
empty or there is no raw span, `Apply` returns the input unchanged. -/
theorem claim_C5 (d : Determinist) (input : Result) :
    (input.Text ≠ [] → input.RawTexts ≠ [] →
      List.Sorted fragLE (Apply d input).Fragments) ∧
    (input.Text = [] ∨ input.RawTexts = [] → Apply d input = input) := by
  constructor
  · intro h1 h2
    unfold Apply applyWithOptions
    rw [if_neg (by simp [h1, h2])]
    exact sortFragments_sorted _
  · intro h
    unfold Apply applyWithOptions
    rw [if_pos h]

/-- C5 witness: for the `{le→lə}` Determinist on a whole-text raw span
the output fragments are sorted, and on `inputNoRaws` the input comes
back unchanged. -/
theorem claim_C5_witness :
    ([108, 101] : Str) ≠ [] ∧
    List.Sorted fragLE
      (Apply detLe ⟨[108, 101], [], [⟨[108, 101], 0, 2⟩]⟩).Fragments ∧
    Apply detLe inputNoRaws = inputNoRaws :=
  ⟨by decide,
   (claim_C5 detLe ⟨[108, 101], [], [⟨[108, 101], 0, 2⟩]⟩).1
     (by decide) (by decide),
   (claim_C5 detLe inputNoRaws).2 (Or.inr rfl)⟩

/-- C9 (amended): when a source fails, the `LoadInto`-style call
returns an error and stops there; the accumulator keeps exactly the
state built by the sources before the failure plus the failing
source's partial emissions (no rollback).  A gob-style failure that
emits nothing leaves the accumulator exactly as it was before that
source. -/
theorem claim_C9 (mode : MergeMode) (rep : Representation)
    (good : List Source) (bad : Source) (rest : List Source)
    (hg : ∀ s ∈ good, s.fails = false) (hb : bad.fails = true) :
    loadIntoModel rep mode (good ++ bad :: rest) =
      ((runLoader mode bad
          (good.foldl (fun r s => (runLoader mode s r).1) rep)).1, false) ∧
    (runLoader mode ⟨[], true⟩ rep).1 = rep := by
  refine ⟨?_, rfl⟩
  induction good generalizing rep with
  | nil =>
    simp only [List.nil_append, List.foldl_nil]
    rcases hr : runLoader mode bad rep with ⟨x, b⟩
    have hb2 : b = false := by
      have := runLoader_snd mode bad rep
      rw [hr, hb] at this
      exact this
    subst hb2
    unfold loadIntoModel
    rw [hr]
  | cons s good' ih =>
    have hs : s.fails = false := hg s (by simp)
    rcases hr : runLoader mode s rep with ⟨x, b⟩
    have hb2 : b = true := by
      have := runLoader_snd mode s rep
      rw [hr, hs] at this
      exact this
    subst hb2
    simp only [List.cons_append, List.foldl_cons]
    unfold loadIntoModel
    rw [hr]
    exact ih x (fun t ht => hg t (List.mem_cons_of_mem s ht))

/-- C9 witness: with one successful source, one failing gob source and
no trailing sources, the call errors out and keeps the first source's
state. -/
theorem claim_C9_witness :
    loadIntoModel NewRepresentation .Append [srcGood, srcBadGob] =
      ((runLoader .Append srcBadGob
          ([srcGood].foldl (fun r s => (runLoader .Append s r).1)
            NewRepresentation)).1, false) ∧
    (runLoader .Append ⟨[], true⟩ NewRepresentation).1 =
      NewRepresentation := by
  have h := claim_C9 .Append NewRepresentation [srcGood] srcBadGob []
    (by intro s hs; simp at hs; rw [hs]; rfl) rfl
  exact h

/-- C8 (amended): an inline `#` starts a comment wherever it occurs:
for any line of the shape `pre # post` whose first rune is neither
whitespace nor `#`, and with no `#` inside `pre`, everything from the
`#` on is dropped and the trimmed `pre` is kept. -/
theorem claim_C8 (pre post : Str) (c : Nat) (hc : pre.head? = some c)
    (hcs : goIsSpace c = false) (hch : c ≠ 35) (hpre : 35 ∉ pre) :
    stripInlineCommentAndTrim (pre ++ 35 :: post) = trimSpace pre := by
  obtain ⟨pre', rfl⟩ : ∃ pre', pre = c :: pre' := by
    cases pre with
    | nil => simp at hc
    | cons a t => simp at hc; exact ⟨t, by rw [hc]⟩
  have hline : trimSpace ((c :: pre') ++ 35 :: post) =
      (c :: pre') ++ 35 :: trimRight post := by
    unfold trimSpace
    rw [List.cons_append, trimLeft_cons_of_nonspace hcs,
      ← List.cons_append, trimRight_append_nonspace (by decide)]
  unfold stripInlineCommentAndTrim
  rw [hline]
  rw [if_neg (by simp [hch])]
  rw [if_pos (by simp)]
  have htake : ((c :: pre') ++ 35 :: trimRight post).takeWhile
      (fun x => decide (x ≠ 35)) = c :: pre' := by
    rw [takeWhile_append_all (fun x hx => by
      simp only [decide_eq_true_eq]
      intro h; exact hpre (h ▸ hx))]
    simp [List.takeWhile_cons]
  rw [htake]

/-- C6: tolerant normalization dominates strict normalization: whenever
two strings agree after trimming and lowercasing, they also agree after
NFD decomposition, removal of nonspacing marks, and normalization. -/
theorem claim_C6 (a b : Str)
    (h : NormalizeString a = NormalizeString b) :
    tolerantNormalize a = tolerantNormalize b := by
  rw [← tolerantNormalize_normalizeString a,
    ← tolerantNormalize_normalizeString b, h]

/-- C6 witness: `" Garçon"` and `"garçon"` normalize equally, so they
tolerant-normalize equally (both to `"garcon"`). -/
theorem claim_C6_witness :
    NormalizeString [32, 71, 97, 114, 0xE7, 111, 110] =
      NormalizeString [103, 97, 114, 0xE7, 111, 110] ∧
    tolerantNormalize [32, 71, 97, 114, 0xE7, 111, 110] =
      tolerantNormalize [103, 97, 114, 0xE7, 111, 110] :=
  ⟨by decide,
   claim_C6 [32, 71, 97, 114, 0xE7, 111, 110] [103, 97, 114, 0xE7, 111, 110]
     (by decide)⟩

/-- C8 witness: the general rule applied to `"a#b\tphon"` gives
exactly `"a"`. -/
theorem claim_C8_witness :
    stripInlineCommentAndTrim lineHash = trimSpace [97] := by
  have h := claim_C8 [97] [98, 9, 112, 104, 111, 110] 97 rfl (by decide)
    (by decide) (by decide)
  exact h

/-- C10: raw-span text consistency.  Every raw span in a Result
returned by `applyWithOptions` (hence `Apply`), when the input raw
spans carry the matching substrings of the input text, as well as in
any Result of `ScanWithOptions` or `Scan` unconditionally, has its
`Text` field equal to the substring of the Result text at rune offsets
`[Pos, Pos+Len)` lying inside the text; and `mergeRawTexts` preserves
this correspondence (merging adjacent spans concatenates their texts).
-/
theorem claim_C10 :
    (∀ (d : Determinist) (input : Result) (opts : DeterministOptions),
      (∀ rt ∈ input.RawTexts, RawOK input.Text rt) →
      ∀ rt ∈ (applyWithOptions d input opts).RawTexts,
        RawOK (applyWithOptions d input opts).Text rt) ∧
    (∀ (d : Determinist) (input : Result),
      (∀ rt ∈ input.RawTexts, RawOK input.Text rt) →
      ∀ rt ∈ (Apply d input).RawTexts, RawOK (Apply d input).Text rt) ∧
    (∀ (d : Determinist) (t : Str) (opts : DeterministOptions),
      ∀ rt ∈ (ScanWithOptions d t opts).RawTexts, RawOK t rt) ∧
    (∀ (d : Determinist) (t : Str),
      ∀ rt ∈ (Scan d t).RawTexts, RawOK t rt) ∧
    (∀ (t : Str) (raws : List RawText),
      (∀ r ∈ raws, RawOK t r) →
      ∀ rt ∈ mergeRawTexts raws, RawOK t rt) :=
  ⟨applyWithOptions_raw,
   fun d input h => applyWithOptions_raw d input d.options h,
   ScanWithOptions_raw,
   fun d t => ScanWithOptions_raw d t d.options,
   mergeRawTexts_raw⟩

/-- C10 witness: applying `detLe` (dictionary `{le}`) to a Result
holding the unmatched text `"ab"` as one raw span returns that span,
and its text is the claimed substring. -/
theorem claim_C10_witness :
    RawOK [97, 98] (⟨[97, 98], 0, 2⟩ : RawText) := by
  have hmem : (⟨[97, 98], 0, 2⟩ : RawText) ∈
      (applyWithOptions detLe ⟨[97, 98], [], [⟨[97, 98], 0, 2⟩]⟩
        ⟨false, false⟩).RawTexts := by
    have he : (applyWithOptions detLe ⟨[97, 98], [], [⟨[97, 98], 0, 2⟩]⟩
        ⟨false, false⟩).RawTexts = [⟨[97, 98], 0, 2⟩] := by
      with_unfolding_all rfl
    rw [he]
    exact List.mem_singleton.mpr rfl
  have h := claim_C10.1 detLe ⟨[97, 98], [], [⟨[97, 98], 0, 2⟩]⟩
    ⟨false, false⟩
    (by intro rt hrt
        simp only [List.mem_singleton] at hrt
        subst hrt
        exact ⟨rfl, by decide⟩)
    ⟨[97, 98], 0, 2⟩ hmem
  rwa [applyWithOptions_text] at h

end Tipa
